import Mathlib

/-!
# Verification of the MemmertControl core

A shallow embedding, in Lean 4, of the core components of the
MemmertControl repository:

* `src/atmoweb.py` — the response repair pipeline (`AtmoWebParser.parse_response`
  with its helpers `_ensure_braces` and `_quote_bareword_values`), and the
  validated parameter client (`AtmoWebClient.get_parameter_range`,
  `AtmoWebClient.set_parameter`, `AtmoWebClient._parse_numeric`).
* `src/memmert_scheduler.py` — the schedule execution engine
  (`ScheduleExecutor.apply_setpoints`, `ScheduleExecutor.check_and_execute`,
  `ScheduleExecutor.get_next_scheduled_time`, and the body of
  `ScheduleExecutor.run_continuous`).

Python strings are modelled as `List Char`, Python floats as `Rat`
(the device protocol only ever transports short decimal literals, so
rational arithmetic is exact on every value that occurs), schedule
timestamps as integers (seconds), and the network as an abstract
function from queries to responses.  Each Python regular-expression
substitution is embedded as a character scanner with exactly the
left-to-right, non-overlapping semantics of `re.sub`; the character
classes of each pattern are pairwise disjoint from the classes of the
adjacent `\s*`/lookahead parts, so the greedy scan below coincides with
the backtracking regex engine.
-/

/-! ## Character classes used by the Python code -/

/-- The whitespace characters of Python's `str.strip()` and of the regex
class `\s`, restricted to ASCII (the device protocol is ASCII apart from
the `„` glyph). -/
def isPyWs (c : Char) : Bool :=
  c = ' ' || c = '\t' || c = '\n' || c = '\r' || c = '\x0b' || c = '\x0c'

/-- The character set of `text.rstrip(", \r\n\t")` in `_ensure_braces`. -/
def isRStripChar (c : Char) : Bool :=
  c = ',' || c = ' ' || c = '\r' || c = '\n' || c = '\t'

/-- First character of a regex identifier: the class `[A-Za-z_]`. -/
def isIdentStart (c : Char) : Bool :=
  c.isAlpha || c = '_'

/-- Continuation character of a regex identifier: the class `[A-Za-z0-9_]`. -/
def isIdentChar (c : Char) : Bool :=
  c.isAlpha || c.isDigit || c = '_'

/-- Character of the bareword-value class `[A-Za-z0-9_. / -]`. -/
def isBareChar (c : Char) : Bool :=
  c.isAlpha || c.isDigit || c = '_' || c = '.' || c = '/' || c = '-'

/-- The character class `[„""]` of `parse_response` (U+201E plus the ASCII
double quote; the ASCII quote is mapped to itself by the substitution). -/
def isCurlyQuote (c : Char) : Bool :=
  c = '„' || c = '"'

/-! ## Python string primitives -/

/-- `s.strip()` on a character list. -/
def pyStrip (cs : List Char) : List Char :=
  ((cs.dropWhile isPyWs).reverse.dropWhile isPyWs).reverse

/-- `text.rstrip(", \r\n\t")`. -/
def pyRStrip (cs : List Char) : List Char :=
  (cs.reverse.dropWhile isRStripChar).reverse

/-- `re.sub(r'[„""]', '"', raw)`: normalise the quote glyphs of the class
to the ASCII double quote. -/
def curlySub (cs : List Char) : List Char :=
  cs.map (fun c => if isCurlyQuote c then '"' else c)

theorem dropWhile_length_le (p : Char → Bool) (l : List Char) :
    (l.dropWhile p).length ≤ l.length := by
  induction l with
  | nil => simp
  | cons a l ih =>
    by_cases hp : p a
    · simp only [List.dropWhile_cons, hp, if_true, List.length_cons]
      omega
    · simp [List.dropWhile_cons, hp]

/-! ## `re.sub(r",\s*}", "}", text)` — trailing-comma removal

`cbAux` scans left to right; at a `,` it checks for `\s*}` and, on a
match, emits the replacement `}` and resumes after the match, exactly as
`re.sub` does (matches never overlap, replacements are not rescanned,
and a failed attempt advances the scan position by one character). -/

def cbAuxF : Nat → List Char → List Char
  | _, [] => []
  | 0, c :: rest => c :: rest
  | Nat.succ fuel, c :: rest =>
    if c = ',' ∧ (rest.dropWhile isPyWs).head? = some '}' then
      '}' :: cbAuxF fuel (rest.dropWhile isPyWs).tail
    else c :: cbAuxF fuel rest

/-- The trailing-comma substitution; fuel `cs.length` always suffices,
since every step strictly consumes input. -/
def cbAux (cs : List Char) : List Char :=
  cbAuxF cs.length cs

theorem cbAuxF_congr : ∀ (fuel fuel' : Nat) (cs : List Char),
    cs.length ≤ fuel → cs.length ≤ fuel' → cbAuxF fuel cs = cbAuxF fuel' cs := by
  intro fuel
  induction fuel with
  | zero =>
    intro fuel' cs h h'
    have : cs = [] := List.eq_nil_of_length_eq_zero (Nat.le_zero.mp h)
    subst this
    cases fuel' <;> rfl
  | succ fuel ih =>
    intro fuel' cs h h'
    cases cs with
    | nil => cases fuel' <;> rfl
    | cons c rest =>
      cases fuel' with
      | zero => simp at h'
      | succ fuel' =>
        simp only [List.length_cons] at h h'
        have hrest : rest.length ≤ fuel := by omega
        have hrest' : rest.length ≤ fuel' := by omega
        have hdl := dropWhile_length_le isPyWs rest
        have hdt : (rest.dropWhile isPyWs).tail.length = (rest.dropWhile isPyWs).length - 1 :=
          List.length_tail _
        show cbAuxF (fuel + 1) (c :: rest) = cbAuxF (fuel' + 1) (c :: rest)
        by_cases hc : c = ',' ∧ (rest.dropWhile isPyWs).head? = some '}'
        · simp only [cbAuxF, if_pos hc]
          exact congrArg _ (ih _ _ (by omega) (by omega))
        · simp only [cbAuxF, if_neg hc]
          exact congrArg _ (ih _ _ hrest hrest')

theorem cbAux_nil : cbAux [] = [] := rfl

/-- One scan step of the trailing-comma substitution. -/
theorem cbAux_cons (c : Char) (rest : List Char) :
    cbAux (c :: rest) =
      if c = ',' ∧ (rest.dropWhile isPyWs).head? = some '}' then
        '}' :: cbAux (rest.dropWhile isPyWs).tail
      else c :: cbAux rest := by
  show cbAuxF (rest.length + 1) (c :: rest) = _
  have hdl := dropWhile_length_le isPyWs rest
  have hdt : (rest.dropWhile isPyWs).tail.length = (rest.dropWhile isPyWs).length - 1 :=
    List.length_tail _
  by_cases hc : c = ',' ∧ (rest.dropWhile isPyWs).head? = some '}'
  · simp only [cbAuxF, if_pos hc]
    exact congrArg _ (cbAuxF_congr _ _ _ (by omega) (by omega))
  · simp only [cbAuxF, if_neg hc]
    rfl

/-- `AtmoWebParser._ensure_braces`: prepend `{` when missing, strip
trailing `", \r\n\t"` and append `}` when missing, then remove commas
before closing braces. -/
def ensure_braces (cs : List Char) : List Char :=
  let cs1 := if cs.head? = some '{' then cs else '{' :: cs
  let cs2 := if cs1.getLast? = some '}' then cs1 else pyRStrip cs1 ++ ['}']
  cbAux cs2

/-! ## `re.sub(r'([,{]\s*)([A-Za-z_][A-Za-z0-9_]*)\s*:', r'\1"\2":', raw)`
— quoting of bare object keys. -/

/-- Attempt to match `\s*([A-Za-z_][A-Za-z0-9_]*)\s*:` at the start of
`cs` (the part of the key pattern after its `[,{]` anchor).  Returns the
leading whitespace (the rest of group 1), the identifier (group 2) and
the remainder after the `:`.  The `\s*` between the identifier and the
`:` is outside both groups, so the replacement `\1"\2":` drops it. -/
def tryKeyMatch (cs : List Char) : Option (List Char × List Char × List Char) :=
  let ws := cs.takeWhile isPyWs
  let r1 := cs.dropWhile isPyWs
  let ident := r1.takeWhile isIdentChar
  let r2 := r1.dropWhile isIdentChar
  let r3 := r2.dropWhile isPyWs
  if ident ≠ [] ∧ isIdentStart ident.headI ∧ r3.head? = some ':' then
    some (ws, ident, r3.tail)
  else none

theorem tryKeyMatch_length {cs ws ident rest : List Char}
    (h : tryKeyMatch cs = some (ws, ident, rest)) : rest.length < cs.length := by
  unfold tryKeyMatch at h
  by_cases hg : (cs.dropWhile isPyWs).takeWhile isIdentChar ≠ [] ∧
      isIdentStart ((cs.dropWhile isPyWs).takeWhile isIdentChar).headI ∧
      (((cs.dropWhile isPyWs).dropWhile isIdentChar).dropWhile isPyWs).head? = some ':'
  · rw [if_pos hg] at h
    obtain ⟨h1, h2, h3⟩ := hg
    have e1 := dropWhile_length_le isPyWs cs
    have e2 := dropWhile_length_le isIdentChar (cs.dropWhile isPyWs)
    have e3 := dropWhile_length_le isPyWs ((cs.dropWhile isPyWs).dropWhile isIdentChar)
    have hne : ((cs.dropWhile isPyWs).dropWhile isIdentChar).dropWhile isPyWs ≠ [] := by
      intro hnil
      rw [hnil] at h3
      simp at h3
    have hident : (cs.dropWhile isPyWs).takeWhile isIdentChar ++
        (cs.dropWhile isPyWs).dropWhile isIdentChar = cs.dropWhile isPyWs :=
      List.takeWhile_append_dropWhile _ _
    have hidlen : 0 < ((cs.dropWhile isPyWs).takeWhile isIdentChar).length :=
      List.length_pos.mpr h1
    have hlen : ((cs.dropWhile isPyWs).takeWhile isIdentChar).length +
        ((cs.dropWhile isPyWs).dropWhile isIdentChar).length =
        (cs.dropWhile isPyWs).length := by
      rw [← List.length_append, hident]
    have htl : (((cs.dropWhile isPyWs).dropWhile isIdentChar).dropWhile isPyWs).tail.length =
        (((cs.dropWhile isPyWs).dropWhile isIdentChar).dropWhile isPyWs).length - 1 :=
      List.length_tail _
    simp only [Option.some.injEq, Prod.mk.injEq] at h
    obtain ⟨-, -, hr⟩ := h
    have hpos : 0 < (((cs.dropWhile isPyWs).dropWhile isIdentChar).dropWhile isPyWs).length :=
      List.length_pos.mpr hne
    subst hr
    omega
  · rw [if_neg hg] at h
    cases h

/-- The key-quoting pass: scan for the anchor characters `,`/`{` and
quote the bare identifier keys that follow them. -/
def qkAuxF : Nat → List Char → List Char
  | _, [] => []
  | 0, c :: rest => c :: rest
  | Nat.succ fuel, c :: rest =>
    if c = ',' ∨ c = '{' then
      match tryKeyMatch rest with
      | some (ws, ident, rest') =>
        c :: (ws ++ '"' :: (ident ++ '"' :: ':' :: qkAuxF fuel rest'))
      | none => c :: qkAuxF fuel rest
    else c :: qkAuxF fuel rest

def qkAux (cs : List Char) : List Char :=
  qkAuxF cs.length cs

theorem qkAuxF_congr : ∀ (fuel fuel' : Nat) (cs : List Char),
    cs.length ≤ fuel → cs.length ≤ fuel' → qkAuxF fuel cs = qkAuxF fuel' cs := by
  intro fuel
  induction fuel with
  | zero =>
    intro fuel' cs h h'
    have : cs = [] := List.eq_nil_of_length_eq_zero (Nat.le_zero.mp h)
    subst this
    cases fuel' <;> rfl
  | succ fuel ih =>
    intro fuel' cs h h'
    cases cs with
    | nil => cases fuel' <;> rfl
    | cons c rest =>
      cases fuel' with
      | zero => simp at h'
      | succ fuel' =>
        simp only [List.length_cons] at h h'
        have hrest : rest.length ≤ fuel := by omega
        have hrest' : rest.length ≤ fuel' := by omega
        show qkAuxF (fuel + 1) (c :: rest) = qkAuxF (fuel' + 1) (c :: rest)
        by_cases hc : c = ',' ∨ c = '{'
        · simp only [qkAuxF, if_pos hc]
          cases hm : tryKeyMatch rest with
          | some w =>
            obtain ⟨ws, ident, rest'⟩ := w
            have hl := tryKeyMatch_length hm
            simp only
            rw [ih fuel' rest' (by omega) (by omega)]
          | none =>
            simp only
            rw [ih fuel' rest hrest hrest']
        · simp only [qkAuxF, if_neg hc]
          rw [ih fuel' rest hrest hrest']

theorem qkAux_nil : qkAux [] = [] := rfl

/-- One scan step of the key-quoting substitution. -/
theorem qkAux_cons (c : Char) (rest : List Char) :
    qkAux (c :: rest) =
      if c = ',' ∨ c = '{' then
        match tryKeyMatch rest with
        | some (ws, ident, rest') =>
          c :: (ws ++ '"' :: (ident ++ '"' :: ':' :: qkAux rest'))
        | none => c :: qkAux rest
      else c :: qkAux rest := by
  show qkAuxF (rest.length + 1) (c :: rest) = _
  by_cases hc : c = ',' ∨ c = '{'
  · simp only [qkAuxF, if_pos hc]
    cases hm : tryKeyMatch rest with
    | some w =>
      obtain ⟨ws, ident, rest'⟩ := w
      have hl := tryKeyMatch_length hm
      simp only
      rw [qkAuxF_congr rest.length rest'.length rest' (by omega) (by omega)]
      rfl
    | none =>
      simp only
      rfl
  · simp only [qkAuxF, if_neg hc]
    rfl

/-! ## `re.sub(r':\s*([A-Za-z_][A-Za-z0-9_. / -]*)\s*(?=[,}])', ...)` —
`AtmoWebParser._quote_bareword_values`.  The replacement is
`:"{group 1}"`; the lookahead `[,}]` is not consumed, so scanning
resumes at the `,`/`}`. -/

/-- Attempt to match `\s*([A-Za-z_][A-Za-z0-9_. / -]*)\s*(?=[,}])` right
after a `:`.  Returns the bareword (group 1) and the remainder starting
at the unconsumed lookahead character. -/
def tryBareword (cs : List Char) : Option (List Char × List Char) :=
  let r1 := cs.dropWhile isPyWs
  let word := r1.takeWhile isBareChar
  let r2 := r1.dropWhile isBareChar
  let r3 := r2.dropWhile isPyWs
  if word ≠ [] ∧ isIdentStart word.headI ∧ (r3.head? = some ',' ∨ r3.head? = some '}') then
    some (word, r3)
  else none

theorem tryBareword_length {cs word rest : List Char}
    (h : tryBareword cs = some (word, rest)) : rest.length < cs.length := by
  unfold tryBareword at h
  by_cases hg : (cs.dropWhile isPyWs).takeWhile isBareChar ≠ [] ∧
      isIdentStart ((cs.dropWhile isPyWs).takeWhile isBareChar).headI ∧
      ((((cs.dropWhile isPyWs).dropWhile isBareChar).dropWhile isPyWs).head? = some ',' ∨
       (((cs.dropWhile isPyWs).dropWhile isBareChar).dropWhile isPyWs).head? = some '}')
  · rw [if_pos hg] at h
    obtain ⟨h1, -, -⟩ := hg
    have e1 := dropWhile_length_le isPyWs cs
    have e3 := dropWhile_length_le isPyWs ((cs.dropWhile isPyWs).dropWhile isBareChar)
    have hword : (cs.dropWhile isPyWs).takeWhile isBareChar ++
        (cs.dropWhile isPyWs).dropWhile isBareChar = cs.dropWhile isPyWs :=
      List.takeWhile_append_dropWhile _ _
    have hwlen : 0 < ((cs.dropWhile isPyWs).takeWhile isBareChar).length :=
      List.length_pos.mpr h1
    have hlen : ((cs.dropWhile isPyWs).takeWhile isBareChar).length +
        ((cs.dropWhile isPyWs).dropWhile isBareChar).length =
        (cs.dropWhile isPyWs).length := by
      rw [← List.length_append, hword]
    simp only [Option.some.injEq, Prod.mk.injEq] at h
    obtain ⟨-, hr⟩ := h
    subst hr
    omega
  · rw [if_neg hg] at h
    cases h

/-- The bareword-value quoting pass: scan for `:` and quote the bareword
that follows it when the lookahead finds `,` or `}`. -/
def qbAuxF : Nat → List Char → List Char
  | _, [] => []
  | 0, c :: rest => c :: rest
  | Nat.succ fuel, c :: rest =>
    if c = ':' then
      match tryBareword rest with
      | some (word, rest') =>
        c :: '"' :: (word ++ '"' :: qbAuxF fuel rest')
      | none => c :: qbAuxF fuel rest
    else c :: qbAuxF fuel rest

def qbAux (cs : List Char) : List Char :=
  qbAuxF cs.length cs

theorem qbAuxF_congr : ∀ (fuel fuel' : Nat) (cs : List Char),
    cs.length ≤ fuel → cs.length ≤ fuel' → qbAuxF fuel cs = qbAuxF fuel' cs := by
  intro fuel
  induction fuel with
  | zero =>
    intro fuel' cs h h'
    have : cs = [] := List.eq_nil_of_length_eq_zero (Nat.le_zero.mp h)
    subst this
    cases fuel' <;> rfl
  | succ fuel ih =>
    intro fuel' cs h h'
    cases cs with
    | nil => cases fuel' <;> rfl
    | cons c rest =>
      cases fuel' with
      | zero => simp at h'
      | succ fuel' =>
        simp only [List.length_cons] at h h'
        have hrest : rest.length ≤ fuel := by omega
        have hrest' : rest.length ≤ fuel' := by omega
        show qbAuxF (fuel + 1) (c :: rest) = qbAuxF (fuel' + 1) (c :: rest)
        by_cases hc : c = ':'
        · simp only [qbAuxF, if_pos hc]
          cases hm : tryBareword rest with
          | some w =>
            obtain ⟨word, rest'⟩ := w
            have hl := tryBareword_length hm
            simp only
            rw [ih fuel' rest' (by omega) (by omega)]
          | none =>
            simp only
            rw [ih fuel' rest hrest hrest']
        · simp only [qbAuxF, if_neg hc]
          rw [ih fuel' rest hrest hrest']

theorem qbAux_nil : qbAux [] = [] := rfl

/-- One scan step of the bareword-value quoting substitution. -/
theorem qbAux_cons (c : Char) (rest : List Char) :
    qbAux (c :: rest) =
      if c = ':' then
        match tryBareword rest with
        | some (word, rest') =>
          c :: '"' :: (word ++ '"' :: qbAux rest')
        | none => c :: qbAux rest
      else c :: qbAux rest := by
  show qbAuxF (rest.length + 1) (c :: rest) = _
  by_cases hc : c = ':'
  · simp only [qbAuxF, if_pos hc]
    cases hm : tryBareword rest with
    | some w =>
      obtain ⟨word, rest'⟩ := w
      have hl := tryBareword_length hm
      simp only
      rw [qbAuxF_congr rest.length rest'.length rest' (by omega) (by omega)]
      rfl
    | none =>
      simp only
      rfl
  · simp only [qbAuxF, if_neg hc]
    rfl

/-! ## Structured data: the result of `json.loads` -/

/-- JSON values as produced by Python's `json.loads`: objects become
dictionaries (association lists in insertion order, later duplicate keys
overwriting in place), numbers become `Rat` (exact on every decimal
literal), and `null` becomes Python `None`. -/
inductive JValue where
  | null : JValue
  | bool (b : Bool) : JValue
  | num (q : Rat) : JValue
  | str (s : String) : JValue
  | arr (items : List JValue) : JValue
  | obj (fields : List (String × JValue)) : JValue

/-- Dictionary insertion: a repeated key overwrites the stored value in
place (Python `dict` semantics), a fresh key is appended. -/
def objInsert : List (String × JValue) → String → JValue → List (String × JValue)
  | [], k, v => [(k, v)]
  | (k', v') :: rest, k, v =>
    if k' = k then (k', v) :: rest else (k', v') :: objInsert rest k v

/-- Dictionary lookup, `d.get(k)`. -/
def objGet : List (String × JValue) → String → Option JValue
  | [], _ => none
  | (k', v') :: rest, k => if k' = k then some v' else objGet rest k

/-- The whitespace skipped by the strict JSON grammar. -/
def isJWs (c : Char) : Bool :=
  c = ' ' || c = '\t' || c = '\n' || c = '\r'

def skipJWs (cs : List Char) : List Char :=
  cs.dropWhile isJWs

def hexVal (c : Char) : Option Nat :=
  if c.isDigit then some (c.toNat - 48)
  else if 'a' ≤ c ∧ c ≤ 'f' then some (c.toNat - 87)
  else if 'A' ≤ c ∧ c ≤ 'F' then some (c.toNat - 55)
  else none

/-- Body of a JSON string after the opening quote: ordinary characters,
the standard escapes, and `\uXXXX`.  Unescaped control characters are
rejected (strict mode). -/
def parseJStringAux : List Char → List Char → Option (String × List Char)
  | acc, '"' :: rest => some (String.mk acc.reverse, rest)
  | acc, '\\' :: '"' :: rest => parseJStringAux ('"' :: acc) rest
  | acc, '\\' :: '\\' :: rest => parseJStringAux ('\\' :: acc) rest
  | acc, '\\' :: '/' :: rest => parseJStringAux ('/' :: acc) rest
  | acc, '\\' :: 'b' :: rest => parseJStringAux ('\x08' :: acc) rest
  | acc, '\\' :: 'f' :: rest => parseJStringAux ('\x0c' :: acc) rest
  | acc, '\\' :: 'n' :: rest => parseJStringAux ('\n' :: acc) rest
  | acc, '\\' :: 'r' :: rest => parseJStringAux ('\r' :: acc) rest
  | acc, '\\' :: 't' :: rest => parseJStringAux ('\t' :: acc) rest
  | acc, '\\' :: 'u' :: h1 :: h2 :: h3 :: h4 :: rest =>
    match hexVal h1, hexVal h2, hexVal h3, hexVal h4 with
    | some a, some b, some c, some d =>
      parseJStringAux (Char.ofNat (((a * 16 + b) * 16 + c) * 16 + d) :: acc) rest
    | _, _, _, _ => none
  | _, '\\' :: _ => none
  | acc, c :: rest => if c.toNat < 32 then none else parseJStringAux (c :: acc) rest
  | _, [] => none

def digitsToNat (ds : List Char) : Nat :=
  ds.foldl (fun n c => n * 10 + (c.toNat - 48)) 0

/-- The optional fraction part `(\.\d+)?` of a JSON number; when the
pattern does not match, nothing is consumed. -/
def parseFrac (cs : List Char) : Nat × Nat × List Char :=
  match cs with
  | '.' :: rest =>
    let fds := rest.takeWhile Char.isDigit
    if fds = [] then (0, 0, cs)
    else (digitsToNat fds, fds.length, rest.dropWhile Char.isDigit)
  | _ => (0, 0, cs)

/-- The optional exponent part `([eE][-+]?\d+)?` of a JSON number; when
the pattern does not match, nothing is consumed. -/
def parseExpPart (cs : List Char) : Int × List Char :=
  match cs with
  | c :: rest =>
    if c = 'e' ∨ c = 'E' then
      match rest with
      | s :: r1 =>
        if s = '+' then
          let eds := r1.takeWhile Char.isDigit
          if eds = [] then (0, cs)
          else ((digitsToNat eds : Int), r1.dropWhile Char.isDigit)
        else if s = '-' then
          let eds := r1.takeWhile Char.isDigit
          if eds = [] then (0, cs)
          else (-(digitsToNat eds : Int), r1.dropWhile Char.isDigit)
        else
          let eds := rest.takeWhile Char.isDigit
          if eds = [] then (0, cs)
          else ((digitsToNat eds : Int), rest.dropWhile Char.isDigit)
      | [] => (0, cs)
    else (0, cs)
  | [] => (0, cs)

def finishNum (neg : Bool) (intPart : Nat) (cs : List Char) : Rat × List Char :=
  let (fracN, fracL, cs2) := parseFrac cs
  let (e, cs3) := parseExpPart cs2
  let mant : Nat := intPart * 10 ^ fracL + fracN
  let num : Int := if neg then -(mant : Int) else (mant : Int)
  let q : Rat :=
    if 0 ≤ e then mkRat (num * ((10 ^ e.toNat : Nat) : Int)) (10 ^ fracL)
    else mkRat num (10 ^ fracL * 10 ^ (-e).toNat)
  (q, cs3)

/-- A JSON number `-?(0|[1-9]\d*)(\.\d+)?([eE][-+]?\d+)?`.  After a
leading `0` no further integer digits are consumed, as in the grammar. -/
def parseNum (cs : List Char) : Option (Rat × List Char) :=
  match cs with
  | '-' :: cs1 =>
    match cs1 with
    | '0' :: rest => some (finishNum true 0 rest)
    | _ =>
      let ds := cs1.takeWhile Char.isDigit
      if ds = [] then none
      else some (finishNum true (digitsToNat ds) (cs1.dropWhile Char.isDigit))
  | '0' :: rest => some (finishNum false 0 rest)
  | _ =>
    let ds := cs.takeWhile Char.isDigit
    if ds = [] then none
    else some (finishNum false (digitsToNat ds) (cs.dropWhile Char.isDigit))

mutual

/-- One JSON value, fuel-indexed recursive descent. -/
def parseVal : Nat → List Char → Option (JValue × List Char)
  | 0, _ => none
  | Nat.succ fuel, cs =>
    match cs with
    | '{' :: rest =>
      match skipJWs rest with
      | '}' :: rest' => some (.obj [], rest')
      | r => parseMembers fuel r []
    | '[' :: rest =>
      match skipJWs rest with
      | ']' :: rest' => some (.arr [], rest')
      | r => parseItems fuel r []
    | '"' :: rest => (parseJStringAux [] rest).map (fun p => (.str p.1, p.2))
    | 't' :: 'r' :: 'u' :: 'e' :: rest => some (.bool true, rest)
    | 'f' :: 'a' :: 'l' :: 's' :: 'e' :: rest => some (.bool false, rest)
    | 'n' :: 'u' :: 'l' :: 'l' :: rest => some (.null, rest)
    | _ => (parseNum cs).map (fun p => (.num p.1, p.2))

/-- The members of a JSON object after the first key is expected. -/
def parseMembers : Nat → List Char → List (String × JValue) → Option (JValue × List Char)
  | 0, _, _ => none
  | Nat.succ fuel, cs, acc =>
    match cs with
    | '"' :: rest =>
      match parseJStringAux [] rest with
      | some (k, r1) =>
        match skipJWs r1 with
        | ':' :: r2 =>
          match parseVal fuel (skipJWs r2) with
          | some (v, r3) =>
            match skipJWs r3 with
            | ',' :: r4 => parseMembers fuel (skipJWs r4) (objInsert acc k v)
            | '}' :: r4 => some (.obj (objInsert acc k v), r4)
            | _ => none
          | none => none
        | _ => none
      | none => none
    | _ => none

/-- The items of a JSON array after the first item is expected. -/
def parseItems : Nat → List Char → List JValue → Option (JValue × List Char)
  | 0, _, _ => none
  | Nat.succ fuel, cs, acc =>
    match parseVal fuel cs with
    | some (v, r1) =>
      match skipJWs r1 with
      | ',' :: r2 => parseItems fuel (skipJWs r2) (acc ++ [v])
      | ']' :: r2 => some (.arr (acc ++ [v]), r2)
      | _ => none
    | none => none

end

/-- `json.loads`: one value surrounded by optional whitespace.  The fuel
`cs.length + 1` dominates the recursion depth, since every recursive
call strictly consumes input. -/
def jsonLoads (cs : List Char) : Except Unit JValue :=
  match parseVal (cs.length + 1) (skipJWs cs) with
  | some (v, rest) => if skipJWs rest = [] then .ok v else .error ()
  | none => .error ()

/-- The full textual repair pipeline of `AtmoWebParser.parse_response`,
before the final strict parse: strip, normalise quote glyphs, ensure
braces (with trailing-comma removal), quote bare keys, quote bareword
values. -/
def repairChars (cs : List Char) : List Char :=
  qbAux (qkAux (ensure_braces (curlySub (pyStrip cs))))

def repairText (s : String) : String :=
  String.mk (repairChars s.data)

/-- `AtmoWebParser.parse_response`: repair, then strict-parse.  A
`.error ()` result models the `json.JSONDecodeError` that `json.loads`
raises on unrepairable input. -/
def parse_response (s : String) : Except Unit JValue :=
  jsonLoads (repairChars s.data)

/-! ## Python `float()` on the values that reach `_parse_numeric`

`pyFloat` models `float(s)` for a string argument: optional surrounding
whitespace, an optional sign, a decimal mantissa (digits on at least one
side of an optional point) and an optional exponent.  The non-finite
spellings (`inf`, `nan`) and digit-group underscores do not occur in the
device protocol and are modelled as failures. -/

def floatVal (neg : Bool) (ids fds : List Char) (e : Int) : Rat :=
  let mant : Nat := digitsToNat ids * 10 ^ fds.length + digitsToNat fds
  let num : Int := if neg then -(mant : Int) else (mant : Int)
  if 0 ≤ e then mkRat (num * ((10 ^ e.toNat : Nat) : Int)) (10 ^ fds.length)
  else mkRat num (10 ^ fds.length * 10 ^ (-e).toNat)

def pyFloat (s : String) : Option Rat :=
  let cs := pyStrip s.data
  let (neg, cs1) : Bool × List Char :=
    match cs with
    | '+' :: rest => (false, rest)
    | '-' :: rest => (true, rest)
    | _ => (false, cs)
  let ids := cs1.takeWhile Char.isDigit
  let cs2 := cs1.dropWhile Char.isDigit
  let (fds, cs3) : List Char × List Char :=
    match cs2 with
    | '.' :: rest => (rest.takeWhile Char.isDigit, rest.dropWhile Char.isDigit)
    | _ => ([], cs2)
  if ids = [] ∧ fds = [] then none
  else
    match cs3 with
    | [] => some (floatVal neg ids fds 0)
    | c :: rest =>
      if c = 'e' ∨ c = 'E' then
        let (esign, r1) : Bool × List Char :=
          match rest with
          | '+' :: r => (false, r)
          | '-' :: r => (true, r)
          | _ => (false, rest)
        let eds := r1.takeWhile Char.isDigit
        if eds = [] then none
        else if r1.dropWhile Char.isDigit ≠ [] then none
        else some (floatVal neg ids fds
          (if esign then -(digitsToNat eds : Int) else (digitsToNat eds : Int)))
      else none

/-- Python `float(x)` on a decoded JSON value:  numbers are returned,
booleans coerce to 0/1, strings go through the string grammar, and
`None`/lists/dicts raise `TypeError` (modelled as `none`). -/
def pyFloatJ : JValue → Option Rat
  | .num q => some q
  | .bool b => some (if b then 1 else 0)
  | .str s => pyFloat s
  | .null => none
  | .arr _ => none
  | .obj _ => none

/-- `AtmoWebClient._parse_numeric`: `float(value) if value is not None
else None`, with `TypeError`/`ValueError` caught and turned into `None`.
The `Option JValue` argument is the result of `response.get(key)`; a
missing key and a JSON `null` both reach the code as Python `None`. -/
def parse_numeric : Option JValue → Option Rat
  | none => none
  | some .null => none
  | some j => pyFloatJ j

/-- `result.strip().upper() in {"N/A", "N/D", "UNKNOWN"}`. -/
def pySentinel (s : String) : Bool :=
  let t := (pyStrip s.data).map Char.toUpper
  t = "N/A".data || t = "N/D".data || t = "UNKNOWN".data

/-! ## The validated parameter client (`AtmoWebClient`)

`AtmoWebClient.query` performs one HTTP round-trip and parses the
response; the device side is abstracted as a function from queries to
outcomes.  `.netErr` models `requests.RequestException` (raised by the
HTTP call), `.badJson` models `json.JSONDecodeError` (raised by
`parse_response` on an unrepairable body; note that in Python this
exception is a subclass of `ValueError`), and `.ok` carries the decoded
response dictionary. -/

/-- A query: `query(**{key: ""})` is a read, `query(**{key: value})` a
write.  Each evaluation of `dev q` is one network round-trip. -/
inductive Query where
  | readQ (key : String)
  | writeQ (key : String) (value : Rat)
deriving DecidableEq

inductive DevResp where
  | netErr
  | badJson
  | ok (fields : List (String × JValue))

def Device : Type := Query → DevResp

/-- Failures that can escape `set_parameter`.  `outOfRange` is the
`ValueError` of the range check, `unsupported` the `KeyError` of the
sentinel check, and the other two are the exceptions propagating from
`query`. -/
inductive SetErr where
  | outOfRange
  | unsupported
  | requestException
  | jsonDecodeError
deriving DecidableEq

/-- Failures that can escape `get_parameter_range` (only the network
error: `json.JSONDecodeError`, being a `ValueError`, is swallowed by the
`except (KeyError, ValueError, TypeError)` clause). -/
inductive QErr where
  | requestException
deriving DecidableEq

/-- `AtmoWebClient._get_dict_value`: try the key variants in order and
return the stored value of the first present key (even when that value
is `null`). -/
def get_dict_value (d : List (String × JValue)) : List String → Option JValue
  | [] => none
  | k :: rest =>
    match objGet d k with
    | some v => some v
    | none => get_dict_value d rest

/-- `x is not None` applied to the result of `_get_dict_value`: a stored
JSON `null` reaches Python as `None` and is indistinguishable from a
missing key at that check. -/
def pyOpt : Option JValue → Option JValue
  | some .null => none
  | x => x

/-- The body of `get_parameter_range` after a successful query: the
nested `{key}_Range` dict shape is preferred; the flat
`{key}_RangeMin`/`{key}_RangeMax` shape is the fallback.  A `float()`
failure anywhere aborts the whole `try` block, which the `except`
clause turns into `None` — in particular the flat shape is *not* tried
when the nested shape was present but unconvertible. -/
def rangeFromInfo (resp : List (String × JValue)) (key : String) : Option (Rat × Rat) :=
  let flat : Option (Rat × Rat) :=
    match objGet resp (key ++ "_RangeMin"), objGet resp (key ++ "_RangeMax") with
    | some a, some b =>
      match pyFloatJ a, pyFloatJ b with
      | some fa, some fb => some (fa, fb)
      | _, _ => none
    | _, _ => none
  match objGet resp (key ++ "_Range") with
  | some (.obj rb) =>
    match pyOpt (get_dict_value rb ["min", "Min", "MIN"]),
          pyOpt (get_dict_value rb ["max", "Max", "MAX"]) with
    | some a, some b =>
      match pyFloatJ a, pyFloatJ b with
      | some fa, some fb => some (fa, fb)
      | _, _ => none
    | _, _ => flat
  | _ => flat

/-- `AtmoWebClient.get_parameter_range`, with the list of performed
round-trips.  A network failure of the read propagates (it is not in
the caught exception tuple); an unparseable body is a `ValueError` and
yields `None`. -/
def get_parameter_range (dev : Device) (key : String) :
    Except QErr (Option (Rat × Rat)) × List Query :=
  match dev (.readQ key) with
  | .netErr => (.error .requestException, [.readQ key])
  | .badJson => (.ok none, [.readQ key])
  | .ok resp => (.ok (rangeFromInfo resp key), [.readQ key])

/-- The write part of `set_parameter` (lines 188–197 of `atmoweb.py`):
send the value, check the echo for a sentinel string, and otherwise
return `_parse_numeric` of the echo. -/
def performWrite (dev : Device) (key : String) (v : Rat) (t : List Query) :
    Except SetErr (Option Rat) × List Query :=
  match dev (.writeQ key v) with
  | .netErr => (.error .requestException, t ++ [.writeQ key v])
  | .badJson => (.error .jsonDecodeError, t ++ [.writeQ key v])
  | .ok resp =>
    match objGet resp key with
    | some (.str s) =>
      if pySentinel s then (.error .unsupported, t ++ [.writeQ key v])
      else (.ok (parse_numeric (some (.str s))), t ++ [.writeQ key v])
    | r => (.ok (parse_numeric r), t ++ [.writeQ key v])

/-- `AtmoWebClient.set_parameter`: fetch the range, validate when a
range is present (`if param_range:` — a pair is always truthy, so this
is a `None` test), and only then write.  The returned list records the
network round-trips in order. -/
def set_parameter (dev : Device) (key : String) (v : Rat) :
    Except SetErr (Option Rat) × List Query :=
  match get_parameter_range dev key with
  | (.error .requestException, t) => (.error .requestException, t)
  | (.ok (some (mn, mx)), t) =>
    if mn ≤ v ∧ v ≤ mx then performWrite dev key v t
    else (.error .outOfRange, t)
  | (.ok none, t) => performWrite dev key v t

/-! ## The schedule execution engine (`ScheduleExecutor`)

Timestamps are modelled as integers (seconds); `parse_timestamp` turns
an ISO-8601 string into such a point in time, and `time_diff =
(now - scheduled_time).total_seconds()`.  The executed-points set stores
`point_id = f"{entry['timestamp']}_{idx}"`; since the index printed
after the final underscore determines `idx` uniquely, the string is in
bijection with the pair `(timestamp, idx)`, which is the representation
used here. -/

structure ScheduleEntry where
  ts : Int
  setpoints : List (String × Rat)

/-- One recorded outcome of the `success` bucket of `apply_setpoints`. -/
structure SetOutcome where
  param : String
  requested : Rat
  actual : Option Rat
deriving DecidableEq

/-- One recorded outcome of the `failed`/`not_available` buckets. -/
structure FailOutcome where
  param : String
  value : Rat
  err : SetErr
deriving DecidableEq

/-- The three outcome buckets of `apply_setpoints`. -/
structure Results where
  success : List SetOutcome
  failed : List FailOutcome
  not_available : List FailOutcome
deriving DecidableEq

/-- `ScheduleExecutor.apply_setpoints`: every pair is classified by the
exception escaping `set_parameter` — `ValueError` (the range check, and
`json.JSONDecodeError` which subclasses it) lands in `failed`,
`KeyError` in `not_available`, any other exception (the network error)
in the final generic `except` and hence also in `failed`.  The Python
loop appends in iteration order; processing the head first and consing
onto the recursive result yields the same bucket order. -/
def apply_setpoints (dev : Device) : List (String × Rat) → Results
  | [] => ⟨[], [], []⟩
  | (k, v) :: rest =>
    let r := apply_setpoints dev rest
    match (set_parameter dev k v).1 with
    | .ok actual => { r with success := ⟨k, v, actual⟩ :: r.success }
    | .error .outOfRange => { r with failed := ⟨k, v, .outOfRange⟩ :: r.failed }
    | .error .jsonDecodeError => { r with failed := ⟨k, v, .jsonDecodeError⟩ :: r.failed }
    | .error .requestException => { r with failed := ⟨k, v, .requestException⟩ :: r.failed }
    | .error .unsupported => { r with not_available := ⟨k, v, .unsupported⟩ :: r.not_available }

/-- The loop body of `ScheduleExecutor.check_and_execute`: walk the
schedule with its indices, skip already-executed points, execute the
points inside the tolerance window (`-tolerance <= time_diff <=
tolerance`), and mark each executed point — unconditionally, whatever
`apply_setpoints` reported. -/
def check_and_execute_aux (dev : Device) (tol now : Int) :
    Nat → List ScheduleEntry → List (Int × Nat) → Bool → Bool × List (Int × Nat)
  | _, [], ex, flag => (flag, ex)
  | idx, e :: rest, ex, flag =>
    if (e.ts, idx) ∈ ex then
      check_and_execute_aux dev tol now (idx + 1) rest ex flag
    else if -tol ≤ now - e.ts ∧ now - e.ts ≤ tol then
      let _results := apply_setpoints dev e.setpoints
      check_and_execute_aux dev tol now (idx + 1) rest (ex ++ [(e.ts, idx)]) true
    else
      check_and_execute_aux dev tol now (idx + 1) rest ex flag

/-- `ScheduleExecutor.check_and_execute` on a loaded schedule: returns
the `executed` flag and the updated executed-points set. -/
def check_and_execute (dev : Device) (tol : Int) (entries : List ScheduleEntry)
    (ex : List (Int × Nat)) (now : Int) : Bool × List (Int × Nat) :=
  check_and_execute_aux dev tol now 0 entries ex false

/-- The point identifiers an invocation of `check_and_execute` executes:
un-executed points whose timestamp lies within the tolerance window. -/
def due_points (tol now : Int) : Nat → List ScheduleEntry → List (Int × Nat) → List (Int × Nat)
  | _, [], _ => []
  | idx, e :: rest, ex =>
    if (e.ts, idx) ∉ ex ∧ -tol ≤ now - e.ts ∧ now - e.ts ≤ tol then
      (e.ts, idx) :: due_points tol now (idx + 1) rest ex
    else
      due_points tol now (idx + 1) rest ex

/-- The `future_times` list built by `get_next_scheduled_time`:
timestamps of un-executed entries strictly after `now`. -/
def future_times (now : Int) : Nat → List ScheduleEntry → List (Int × Nat) → List Int
  | _, [], _ => []
  | idx, e :: rest, ex =>
    if (e.ts, idx) ∉ ex ∧ now < e.ts then
      e.ts :: future_times now (idx + 1) rest ex
    else
      future_times now (idx + 1) rest ex

/-- `ScheduleExecutor.get_next_scheduled_time`:
`min(future_times) if future_times else None`. -/
def get_next_scheduled_time (entries : List ScheduleEntry) (ex : List (Int × Nat))
    (now : Int) : Option Int :=
  match future_times now 0 entries ex with
  | [] => none
  | t :: ts => some (ts.foldl min t)

/-- Outcome of one iteration of the `while True` loop of
`ScheduleExecutor.run_continuous`. -/
inductive LoopStep where
  | stopDuration
  | stopExhausted (ex : List (Int × Nat))
  | continuePolling (ex : List (Int × Nat))
deriving DecidableEq

/-- One iteration of `run_continuous`: stop when the optional duration
cap has elapsed; otherwise execute the due entries, and either break
out (schedule exhausted: `get_next_scheduled_time` returned `None`) or
sleep until the next poll. -/
def run_continuous_iter (dev : Device) (tol : Int) (entries : List ScheduleEntry)
    (ex : List (Int × Nat)) (endTime : Option Int) (now : Int) : LoopStep :=
  if (match endTime with | some t => decide (now ≥ t) | none => false) then
    .stopDuration
  else
    let ex2 := (check_and_execute dev tol entries ex now).2
    match get_next_scheduled_time entries ex2 now with
    | some _ => .continuePolling ex2
    | none => .stopExhausted ex2

/-! ## Concrete devices used to witness the client theorems -/

/-- A device that reports the range `[0, 100]` for every key and echoes
every written value unchanged. -/
def devEcho : Device := fun q =>
  match q with
  | .readQ key => .ok [(key ++ "_Range", .obj [("min", .num 0), ("max", .num 100)])]
  | .writeQ key v => .ok [(key, .num v)]

/-- A device without range information that echoes written values. -/
def devNoRange : Device := fun q =>
  match q with
  | .readQ key => .ok [(key, .num 30)]
  | .writeQ key _ => .ok [(key, .num 30)]

/-- A device without range information that clamps every write to 99. -/
def devClamp : Device := fun q =>
  match q with
  | .readQ key => .ok [(key, .num 30)]
  | .writeQ key _ => .ok [(key, .num 99)]

/-- A device that reports a range but answers every write with the
sentinel string `"n/d"`. -/
def devSentinel : Device := fun q =>
  match q with
  | .readQ key => .ok [(key ++ "_Range", .obj [("min", .num 0), ("max", .num 100)])]
  | .writeQ key _ => .ok [(key, .str "n/d")]

/-- A device that answers every write with a non-numeric, non-sentinel
string. -/
def devGarbage : Device := fun q =>
  match q with
  | .readQ _ => .ok []
  | .writeQ key _ => .ok [(key, .str "soon")]

/-- Does a fetched range admit the requested value?  (`set_parameter`
skips validation entirely when the range is absent.) -/
def rangeAdmits (rng : Option (Rat × Rat)) (v : Rat) : Prop :=
  match rng with
  | some (mn, mx) => mn ≤ v ∧ v ≤ mx
  | none => True

/-- The trace of `get_parameter_range` is always the single read. -/
theorem get_parameter_range_trace (dev : Device) (key : String) :
    (get_parameter_range dev key).2 = [.readQ key] := by
  unfold get_parameter_range
  cases dev (.readQ key) <;> rfl

/-- C2: when the fetched range is present and the requested value lies
outside `[min, max]`, `set_parameter` fails with the out-of-range
`ValueError` and the trace consists of the single range-check read: no
write query carrying the value is ever issued, and in every completed
trace the range check precedes any write. -/
theorem C2_out_of_range_blocks_write (dev : Device) (key : String) (v mn mx : Rat)
    (hrange : (get_parameter_range dev key).1 = .ok (some (mn, mx)))
    (hout : ¬(mn ≤ v ∧ v ≤ mx)) :
    set_parameter dev key v = (.error .outOfRange, [.readQ key]) := by
  unfold set_parameter
  unfold get_parameter_range at hrange ⊢
  cases hq : dev (.readQ key) with
  | netErr => rw [hq] at hrange; cases hrange
  | badJson =>
    rw [hq] at hrange
    simp at hrange
  | ok resp =>
    rw [hq] at hrange
    simp only [Except.ok.injEq] at hrange
    dsimp only
    rw [hrange]
    simp only [if_neg hout]

theorem C2_out_of_range_blocks_write_witness :
    (get_parameter_range devEcho "TempSet").1 = .ok (some (0, 100)) ∧
    ¬((0 : Rat) ≤ 150 ∧ (150 : Rat) ≤ 100) ∧
    set_parameter devEcho "TempSet" 150 = (.error .outOfRange, [.readQ "TempSet"]) :=
  ⟨rfl, by decide, C2_out_of_range_blocks_write devEcho "TempSet" 150 0 100 rfl (by decide)⟩

/-- When the fetched range admits the value (or is absent),
`set_parameter` proceeds to the write part with the read recorded. -/
theorem set_parameter_write (dev : Device) (key : String) (v : Rat)
    (rng : Option (Rat × Rat))
    (hrange : (get_parameter_range dev key).1 = .ok rng)
    (hok : rangeAdmits rng v) :
    set_parameter dev key v = performWrite dev key v [.readQ key] := by
  unfold set_parameter
  unfold get_parameter_range at hrange ⊢
  cases hq : dev (.readQ key) with
  | netErr => rw [hq] at hrange; cases hrange
  | badJson =>
    rw [hq] at hrange
  | ok resp =>
    rw [hq] at hrange
    simp only [Except.ok.injEq] at hrange
    dsimp only
    rw [hrange]
    cases rng with
    | none => rfl
    | some p =>
      obtain ⟨mn, mx⟩ := p
      unfold rangeAdmits at hok
      simp only [if_pos hok]

/-- The trace of the write part: the prior trace plus the write query. -/
theorem performWrite_trace (dev : Device) (key : String) (v : Rat) (t : List Query) :
    (performWrite dev key v t).2 = t ++ [.writeQ key v] := by
  unfold performWrite
  split
  · rfl
  · rfl
  · split
    · split
      · rfl
      · rfl
    · rfl

/-- C3: a sentinel echo (`N/A`, `N/D`, `UNKNOWN` up to case and
surrounding whitespace) on a write makes `set_parameter` fail with the
unsupported-parameter `KeyError`, an error distinct from the
out-of-range and network failures; a non-sentinel string echo is
instead parsed as a double. -/
theorem C3_sentinel_echo_unsupported (dev : Device) (key : String) (v : Rat)
    (rng : Option (Rat × Rat)) (resp : List (String × JValue)) (s : String)
    (hrange : (get_parameter_range dev key).1 = .ok rng)
    (hok : rangeAdmits rng v)
    (hw : dev (.writeQ key v) = .ok resp)
    (hecho : objGet resp key = some (.str s)) :
    (pySentinel s = true → (set_parameter dev key v).1 = .error .unsupported) ∧
    (pySentinel s = false → (set_parameter dev key v).1 = .ok (pyFloat s)) ∧
    SetErr.unsupported ≠ SetErr.outOfRange ∧
    SetErr.unsupported ≠ SetErr.requestException ∧
    SetErr.unsupported ≠ SetErr.jsonDecodeError := by
  rw [set_parameter_write dev key v rng hrange hok]
  unfold performWrite
  rw [hw]
  dsimp only
  rw [hecho]
  refine ⟨?_, ?_, by decide, by decide, by decide⟩
  · intro hs
    simp only [if_pos hs]
  · intro hs
    simp only [hs, Bool.false_eq_true, if_false]
    rfl

theorem C3_sentinel_echo_unsupported_witness :
    (get_parameter_range devSentinel "HumSet").1 = .ok (some (0, 100)) ∧
    rangeAdmits (some (0, 100)) 50 ∧
    devSentinel (.writeQ "HumSet" 50) = .ok [("HumSet", .str "n/d")] ∧
    objGet [("HumSet", JValue.str "n/d")] "HumSet" = some (.str "n/d") ∧
    pySentinel "n/d" = true ∧
    (set_parameter devSentinel "HumSet" 50).1 = .error .unsupported :=
  ⟨rfl, by constructor <;> decide, rfl, rfl, rfl,
    (C3_sentinel_echo_unsupported devSentinel "HumSet" 50 (some (0, 100))
      [("HumSet", .str "n/d")] "n/d" rfl ⟨by decide, by decide⟩ rfl rfl).1 rfl⟩

/-- C5: on a completed write, the value handed back to the caller is the
echoed value parsed as a double — not the requested one.  In the
concrete clamping scenario the device echoes `99.0` for a request of
`99.9` and `set_parameter` returns `99`. -/
theorem C5_returns_echoed_value (dev : Device) (key : String) (v q : Rat)
    (rng : Option (Rat × Rat)) (resp : List (String × JValue))
    (hrange : (get_parameter_range dev key).1 = .ok rng)
    (hok : rangeAdmits rng v)
    (hw : dev (.writeQ key v) = .ok resp)
    (hecho : objGet resp key = some (.num q)) :
    (set_parameter dev key v).1 = .ok (some q) ∧
    (set_parameter devClamp "TempSet" (mkRat 999 10)).1 = .ok (some 99) ∧
    mkRat 999 10 ≠ (99 : Rat) := by
  refine ⟨?_, rfl, by decide⟩
  rw [set_parameter_write dev key v rng hrange hok]
  unfold performWrite
  rw [hw]
  dsimp only
  rw [hecho]
  rfl

theorem C5_returns_echoed_value_witness :
    (set_parameter devClamp "TempSet" (mkRat 999 10)).1 = .ok (some 99) :=
  (C5_returns_echoed_value devClamp "TempSet" (mkRat 999 10) 99 none
    [("TempSet", .num 99)] rfl trivial rfl rfl).2.1

/-- C10: when the echo for the wire key is absent, `null`, or a string
that is neither a sentinel nor parseable as a double, `set_parameter`
completes with `None` — a third outcome besides a number and a
failure. -/
theorem C10_unparseable_echo_returns_none (dev : Device) (key : String) (v : Rat)
    (rng : Option (Rat × Rat)) (resp : List (String × JValue))
    (hrange : (get_parameter_range dev key).1 = .ok rng)
    (hok : rangeAdmits rng v)
    (hw : dev (.writeQ key v) = .ok resp) :
    (objGet resp key = none → (set_parameter dev key v).1 = .ok none) ∧
    (objGet resp key = some .null → (set_parameter dev key v).1 = .ok none) ∧
    (∀ s : String, objGet resp key = some (.str s) → pySentinel s = false →
      pyFloat s = none → (set_parameter dev key v).1 = .ok none) := by
  rw [set_parameter_write dev key v rng hrange hok]
  unfold performWrite
  rw [hw]
  dsimp only
  refine ⟨?_, ?_, ?_⟩
  · intro hecho
    rw [hecho]
    rfl
  · intro hecho
    rw [hecho]
    rfl
  · intro s hecho hs hf
    rw [hecho]
    dsimp only
    rw [if_neg (by simp [hs])]
    show Except.ok (pyFloat s) = .ok none
    rw [hf]

theorem C10_unparseable_echo_returns_none_witness :
    devGarbage (.writeQ "CO2Set" 5) = .ok [("CO2Set", .str "soon")] ∧
    pySentinel "soon" = false ∧
    pyFloat "soon" = none ∧
    (set_parameter devGarbage "CO2Set" 5).1 = .ok none :=
  ⟨rfl, rfl, rfl,
    (C10_unparseable_echo_returns_none devGarbage "CO2Set" 5 none
      [("CO2Set", .str "soon")] rfl trivial rfl).2.2 "soon" rfl rfl rfl⟩

/-- C8 (amended): every `set_parameter` call that completes without an
exception performs exactly two network round-trips — the range-check
read followed by the write — whether or not range data was present.
(The range-check query is issued unconditionally; an absent range skips
only the validation, not the round-trip.) -/
theorem C8_amended_two_roundtrips (dev : Device) (key : String) (v : Rat)
    (r : Option Rat) (tr : List Query)
    (h : set_parameter dev key v = (.ok r, tr)) :
    tr = [.readQ key, .writeQ key v] := by
  have hsnd := congrArg Prod.snd h
  have hfst := congrArg Prod.fst h
  unfold set_parameter at hsnd hfst
  unfold get_parameter_range at hsnd hfst
  cases hq : dev (.readQ key) with
  | netErr =>
    rw [hq] at hfst
    cases hfst
  | badJson =>
    rw [hq] at hsnd
    dsimp only at hsnd
    rw [performWrite_trace] at hsnd
    exact hsnd.symm
  | ok resp =>
    rw [hq] at hsnd hfst
    dsimp only at hsnd hfst
    cases hr : rangeFromInfo resp key with
    | none =>
      rw [hr] at hsnd
      dsimp only at hsnd
      rw [performWrite_trace] at hsnd
      exact hsnd.symm
    | some p =>
      obtain ⟨mn, mx⟩ := p
      rw [hr] at hsnd hfst
      dsimp only at hsnd hfst
      by_cases hin : mn ≤ v ∧ v ≤ mx
      · rw [if_pos hin] at hsnd
        rw [performWrite_trace] at hsnd
        exact hsnd.symm
      · rw [if_neg hin] at hfst
        cases hfst

theorem C8_amended_two_roundtrips_witness :
    set_parameter devNoRange "TempSet" 30 =
      (.ok (some 30), [.readQ "TempSet", .writeQ "TempSet" 30]) ∧
    ([Query.readQ "TempSet", Query.writeQ "TempSet" 30] : List Query) =
      [.readQ "TempSet", .writeQ "TempSet" 30] :=
  ⟨rfl, C8_amended_two_roundtrips devNoRange "TempSet" 30 (some 30)
    [.readQ "TempSet", .writeQ "TempSet" 30] rfl⟩

/-- C8 (counterexample): on a device without range data the claim's
"only one round-trip" case is false — the range query is still issued,
so a completed call performs two round-trips. -/
theorem C8_counterexample_range_absent_still_two :
    (get_parameter_range devNoRange "TempSet").1 = .ok none ∧
    set_parameter devNoRange "TempSet" 30 =
      (.ok (some 30), [.readQ "TempSet", .writeQ "TempSet" 30]) ∧
    (set_parameter devNoRange "TempSet" 30).2.length ≠ 1 :=
  ⟨rfl, rfl, by decide⟩

/-! ## Characterisation of `check_and_execute` -/

/-- Walking the tail of the schedule only ever appends due points whose
indices are at least the current one; points already accumulated with
smaller indices can never collide with them. -/
theorem check_aux_spec (dev : Device) (tol now : Int) :
    ∀ (entries : List ScheduleEntry) (idx : Nat) (ex extra : List (Int × Nat)) (flag : Bool),
      (∀ p ∈ extra, p.2 < idx) →
      check_and_execute_aux dev tol now idx entries (ex ++ extra) flag =
        (flag || decide (due_points tol now idx entries ex ≠ []),
         ex ++ extra ++ due_points tol now idx entries ex) := by
  intro entries
  induction entries with
  | nil =>
    intro idx ex extra flag hextra
    simp [check_and_execute_aux, due_points]
  | cons e rest ih =>
    intro idx ex extra flag hextra
    unfold check_and_execute_aux due_points
    by_cases hmem : (e.ts, idx) ∈ ex ++ extra
    · rw [if_pos hmem]
      have hmem' : (e.ts, idx) ∈ ex := by
        rcases List.mem_append.mp hmem with h | h
        · exact h
        · exact absurd (hextra _ h) (by simp)
      rw [if_neg (fun hc => hc.1 hmem')]
      exact ih (idx + 1) ex extra flag (fun p hp => Nat.lt_succ_of_lt (hextra p hp))
    · rw [if_neg hmem]
      have hnotex : (e.ts, idx) ∉ ex := fun h => hmem (List.mem_append.mpr (Or.inl h))
      by_cases hwin : -tol ≤ now - e.ts ∧ now - e.ts ≤ tol
      · rw [if_pos hwin, if_pos ⟨hnotex, hwin⟩]
        have hassoc : ex ++ extra ++ [(e.ts, idx)] = ex ++ (extra ++ [(e.ts, idx)]) :=
          List.append_assoc _ _ _
        rw [hassoc, ih (idx + 1) ex (extra ++ [(e.ts, idx)]) true ?hlt]
        case hlt =>
          intro p hp
          rcases List.mem_append.mp hp with h | h
          · exact Nat.lt_succ_of_lt (hextra p h)
          · simp at h
            subst h
            exact Nat.lt_succ_self idx
        simp [List.append_assoc]
      · rw [if_neg hwin, if_neg (fun hc => hwin hc.2)]
        exact ih (idx + 1) ex extra flag (fun p hp => Nat.lt_succ_of_lt (hextra p hp))

/-- `check_and_execute` executes exactly the due points, appends them to
the executed set, and reports whether any entry fired — independently of
any per-setpoint outcome. -/
theorem check_and_execute_eq (dev : Device) (tol : Int) (entries : List ScheduleEntry)
    (ex : List (Int × Nat)) (now : Int) :
    check_and_execute dev tol entries ex now =
      (decide (due_points tol now 0 entries ex ≠ []),
       ex ++ due_points tol now 0 entries ex) := by
  have h := check_aux_spec dev tol now entries 0 ex [] false (by simp)
  simpa [check_and_execute] using h

/-- Membership in the due list, with the running index made explicit. -/
theorem due_points_mem (tol now : Int) :
    ∀ (entries : List ScheduleEntry) (idx : Nat) (ex : List (Int × Nat)) (t : Int) (i : Nat),
      (t, i) ∈ due_points tol now idx entries ex ↔
        ∃ j e, entries[j]? = some e ∧ i = idx + j ∧ e.ts = t ∧ (t, i) ∉ ex ∧
          -tol ≤ now - t ∧ now - t ≤ tol := by
  intro entries
  induction entries with
  | nil =>
    intro idx ex t i
    simp [due_points]
  | cons e rest ih =>
    intro idx ex t i
    unfold due_points
    by_cases hc : (e.ts, idx) ∉ ex ∧ -tol ≤ now - e.ts ∧ now - e.ts ≤ tol
    · rw [if_pos hc]
      constructor
      · intro hmem
        rcases List.mem_cons.mp hmem with heq | hmem'
        · obtain ⟨ht, hi⟩ := Prod.mk.injEq .. ▸ heq
          refine ⟨0, e, by simp, by omega, ht.symm, ?_, ?_, ?_⟩
          · rw [ht, hi]
            exact hc.1
          · rw [ht]
            exact hc.2.1
          · rw [ht]
            exact hc.2.2
        · obtain ⟨j, e', hj, hi, hts, hnot, hw1, hw2⟩ := (ih (idx + 1) ex t i).mp hmem'
          exact ⟨j + 1, e', by simpa using hj, by omega, hts, hnot, hw1, hw2⟩
      · rintro ⟨j, e', hj, hi, hts, hnot, hw1, hw2⟩
        cases j with
        | zero =>
          simp only [List.getElem?_cons_zero, Option.some.injEq] at hj
          subst hj
          subst hts
          have : i = idx := by omega
          subst this
          exact List.mem_cons_self _ _
        | succ j =>
          apply List.mem_cons_of_mem
          exact (ih (idx + 1) ex t i).mpr
            ⟨j, e', by simpa using hj, by omega, hts, hnot, hw1, hw2⟩
    · rw [if_neg hc]
      constructor
      · intro hmem
        obtain ⟨j, e', hj, hi, hts, hnot, hw1, hw2⟩ := (ih (idx + 1) ex t i).mp hmem
        exact ⟨j + 1, e', by simpa using hj, by omega, hts, hnot, hw1, hw2⟩
      · rintro ⟨j, e', hj, hi, hts, hnot, hw1, hw2⟩
        cases j with
        | zero =>
          simp only [List.getElem?_cons_zero, Option.some.injEq] at hj
          subst hj
          subst hts
          have : i = idx := by omega
          subst this
          exact absurd ⟨hnot, hw1, hw2⟩ hc
        | succ j =>
          exact (ih (idx + 1) ex t i).mpr
            ⟨j, e', by simpa using hj, by omega, hts, hnot, hw1, hw2⟩

/-- A due point was, by construction, not yet executed. -/
theorem due_points_not_executed (tol now : Int) :
    ∀ (entries : List ScheduleEntry) (idx : Nat) (ex : List (Int × Nat)) (p : Int × Nat),
      p ∈ due_points tol now idx entries ex → p ∉ ex := by
  intro entries
  induction entries with
  | nil =>
    intro idx ex p hp
    simp [due_points] at hp
  | cons e rest ih =>
    intro idx ex p hp
    unfold due_points at hp
    by_cases hc : (e.ts, idx) ∉ ex ∧ -tol ≤ now - e.ts ∧ now - e.ts ≤ tol
    · rw [if_pos hc] at hp
      rcases List.mem_cons.mp hp with heq | h'
      · subst heq
        exact hc.1
      · exact ih _ _ _ h'
    · rw [if_neg hc] at hp
      exact ih _ _ _ hp

/-- The two-entry schedule of the specification's scenario: one entry at
`T0 = 0` and one at `T0 + 1h = 3600`. -/
def exampleSchedule : List ScheduleEntry :=
  [⟨0, [("TempSet", 37)]⟩, ⟨3600, [("HumSet", 60)]⟩]

/-- C1: a `check_and_execute` call at `now` applies exactly the entries,
identified by (timestamp, index), that are not yet recorded and whose
timestamp lies within the tolerance window; every applied entry is
recorded regardless of the setpoint outcomes (the device is arbitrary),
and is never applied again by a later call; in the two-entry scenario
with tolerance 60 s, the call at `T0` executes only the first entry, an
immediate repeat is a no-op, and the call at `T0+1h` executes the
second. -/
theorem C1_check_and_execute_exactly_due (dev : Device) (tol : Int)
    (entries : List ScheduleEntry) (ex : List (Int × Nat)) (now now' : Int) :
    check_and_execute dev tol entries ex now =
      (decide (due_points tol now 0 entries ex ≠ []),
       ex ++ due_points tol now 0 entries ex) ∧
    (∀ t i, (t, i) ∈ due_points tol now 0 entries ex ↔
      ∃ e, entries[i]? = some e ∧ e.ts = t ∧ (t, i) ∉ ex ∧ |now - t| ≤ tol) ∧
    (∀ p, p ∈ due_points tol now 0 entries ex →
      p ∉ due_points tol now' 0 entries (ex ++ due_points tol now 0 entries ex)) ∧
    (check_and_execute dev 60 exampleSchedule [] 0 = (true, [(0, 0)]) ∧
     check_and_execute dev 60 exampleSchedule [(0, 0)] 0 = (false, [(0, 0)]) ∧
     check_and_execute dev 60 exampleSchedule [(0, 0)] 3600 = (true, [(0, 0), (3600, 1)])) := by
  refine ⟨check_and_execute_eq dev tol entries ex now, ?_, ?_, ?_, ?_, ?_⟩
  · intro t i
    rw [due_points_mem]
    constructor
    · rintro ⟨j, e, hj, hi, hts, hnot, hw1, hw2⟩
      have : i = j := by omega
      subst this
      exact ⟨e, hj, hts, hnot, abs_le.mpr ⟨by omega, by omega⟩⟩
    · rintro ⟨e, hj, hts, hnot, hw⟩
      obtain ⟨hw1, hw2⟩ := abs_le.mp hw
      exact ⟨i, e, hj, by omega, hts, hnot, by omega, by omega⟩
  · intro p hp
    intro hp2
    have hnot := due_points_not_executed tol now' entries 0
      (ex ++ due_points tol now 0 entries ex) p hp2
    exact hnot (List.mem_append.mpr (Or.inr hp))
  · rw [check_and_execute_eq]
    decide
  · rw [check_and_execute_eq]
    decide
  · rw [check_and_execute_eq]
    decide

theorem C1_check_and_execute_exactly_due_witness :
    ((0 : Int), (0 : Nat)) ∈ due_points 60 0 0 exampleSchedule [] ∧
    ((0 : Int), (0 : Nat)) ∉ due_points 60 0 0 exampleSchedule
      ([] ++ due_points 60 0 0 exampleSchedule []) :=
  ⟨by decide,
    (C1_check_and_execute_exactly_due devEcho 60 exampleSchedule [] 0 0).2.2.1
      (0, 0) (by decide)⟩

/-! ## Characterisation of `get_next_scheduled_time` and the run loop -/

/-- `min` over a Python list via `foldl`: the result is an element of
the accumulator-or-list and a lower bound of both. -/
theorem foldl_min_spec (ts : List Int) :
    ∀ t : Int, (ts.foldl min t = t ∨ ts.foldl min t ∈ ts) ∧
      (∀ u : Int, (u = t ∨ u ∈ ts) → ts.foldl min t ≤ u) := by
  induction ts with
  | nil =>
    intro t
    refine ⟨Or.inl rfl, ?_⟩
    rintro u (rfl | hu)
    · exact le_refl u
    · simp at hu
  | cons a ts ih =>
    intro t
    simp only [List.foldl_cons]
    obtain ⟨ihmem, ihle⟩ := ih (min t a)
    constructor
    · rcases ihmem with h | h
      · rcases min_choice t a with hm | hm
        · exact Or.inl (h.trans hm)
        · refine Or.inr ?_
          rw [h.trans hm]
          exact List.mem_cons_self _ _
      · exact Or.inr (List.mem_cons_of_mem a h)
    · rintro u (rfl | hu)
      · exact le_trans (ihle _ (Or.inl rfl)) (min_le_left _ _)
      · rcases List.mem_cons.mp hu with rfl | hu'
        · exact le_trans (ihle _ (Or.inl rfl)) (min_le_right _ _)
        · exact ihle _ (Or.inr hu')

/-- Membership in the `future_times` list, with the index explicit. -/
theorem future_times_mem (now : Int) :
    ∀ (entries : List ScheduleEntry) (idx : Nat) (ex : List (Int × Nat)) (u : Int),
      u ∈ future_times now idx entries ex ↔
        ∃ j e, entries[j]? = some e ∧ e.ts = u ∧ (u, idx + j) ∉ ex ∧ now < u := by
  intro entries
  induction entries with
  | nil =>
    intro idx ex u
    simp [future_times]
  | cons e rest ih =>
    intro idx ex u
    unfold future_times
    by_cases hc : (e.ts, idx) ∉ ex ∧ now < e.ts
    · rw [if_pos hc]
      constructor
      · intro hmem
        rcases List.mem_cons.mp hmem with rfl | hmem'
        · exact ⟨0, e, by simp, rfl, by simpa using hc.1, hc.2⟩
        · obtain ⟨j, e', hj, hts, hnot, hlt⟩ := (ih (idx + 1) ex u).mp hmem'
          refine ⟨j + 1, e', by simpa using hj, hts, ?_, hlt⟩
          have : idx + (j + 1) = idx + 1 + j := by omega
          rw [this]
          exact hnot
      · rintro ⟨j, e', hj, hts, hnot, hlt⟩
        cases j with
        | zero =>
          simp only [List.getElem?_cons_zero, Option.some.injEq] at hj
          subst hj
          subst hts
          exact List.mem_cons_self _ _
        | succ j =>
          apply List.mem_cons_of_mem
          refine (ih (idx + 1) ex u).mpr ⟨j, e', by simpa using hj, hts, ?_, hlt⟩
          have : idx + 1 + j = idx + (j + 1) := by omega
          rw [this]
          exact hnot
    · rw [if_neg hc]
      constructor
      · intro hmem
        obtain ⟨j, e', hj, hts, hnot, hlt⟩ := (ih (idx + 1) ex u).mp hmem
        refine ⟨j + 1, e', by simpa using hj, hts, ?_, hlt⟩
        have : idx + (j + 1) = idx + 1 + j := by omega
        rw [this]
        exact hnot
      · rintro ⟨j, e', hj, hts, hnot, hlt⟩
        cases j with
        | zero =>
          simp only [List.getElem?_cons_zero, Option.some.injEq] at hj
          subst hj
          subst hts
          simp only [Nat.add_zero] at hnot
          exact absurd ⟨hnot, hlt⟩ hc
        | succ j =>
          refine (ih (idx + 1) ex u).mpr ⟨j, e', by simpa using hj, hts, ?_, hlt⟩
          have : idx + 1 + j = idx + (j + 1) := by omega
          rw [this]
          exact hnot

/-- C6: `get_next_scheduled_time` returns the minimum timestamp strictly
after `now` among un-executed entries (absent exactly when there is no
such entry), and when it returns absent right after the due check, the
`run_continuous` iteration breaks out of the loop (`Exhausted`) instead
of continuing to poll. -/
theorem C6_get_next_due_min_and_loop_exit (dev : Device) (tol : Int)
    (entries : List ScheduleEntry) (ex : List (Int × Nat)) (endTime : Option Int)
    (now : Int) :
    (∀ t, get_next_scheduled_time entries ex now = some t ↔
      (t ∈ future_times now 0 entries ex ∧ ∀ u ∈ future_times now 0 entries ex, t ≤ u)) ∧
    (get_next_scheduled_time entries ex now = none ↔ future_times now 0 entries ex = []) ∧
    (∀ u, u ∈ future_times now 0 entries ex ↔
      ∃ i e, entries[i]? = some e ∧ e.ts = u ∧ (u, i) ∉ ex ∧ now < u) ∧
    (get_next_scheduled_time entries
        ((check_and_execute dev tol entries ex now).2) now = none →
      (∀ ex2, run_continuous_iter dev tol entries ex endTime now ≠ .continuePolling ex2) ∧
      ((match endTime with | some t => decide (now ≥ t) | none => false) = false →
        run_continuous_iter dev tol entries ex endTime now =
          .stopExhausted ((check_and_execute dev tol entries ex now).2))) := by
  refine ⟨?_, ?_, ?_, ?_⟩
  · intro t
    unfold get_next_scheduled_time
    cases hf : future_times now 0 entries ex with
    | nil =>
      simp only
      constructor
      · intro h
        cases h
      · rintro ⟨hmem, -⟩
        simp at hmem
    | cons a ts =>
      simp only [Option.some.injEq]
      obtain ⟨hmem, hle⟩ := foldl_min_spec ts a
      constructor
      · rintro rfl
        constructor
        · rcases hmem with h | h
          · rw [h]
            exact List.mem_cons_self _ _
          · exact List.mem_cons_of_mem a h
        · intro u hu
          rcases List.mem_cons.mp hu with rfl | hu'
          · exact hle _ (Or.inl rfl)
          · exact hle _ (Or.inr hu')
      · rintro ⟨hmemt, hlet⟩
        have h1 : ts.foldl min a ≤ t := by
          rcases List.mem_cons.mp hmemt with rfl | h
          · exact hle _ (Or.inl rfl)
          · exact hle _ (Or.inr h)
        have h2 : t ≤ ts.foldl min a := by
          apply hlet
          rcases hmem with h | h
          · rw [h]
            exact List.mem_cons_self _ _
          · exact List.mem_cons_of_mem a h
        omega
  · unfold get_next_scheduled_time
    cases hf : future_times now 0 entries ex with
    | nil => simp
    | cons a ts => simp
  · intro u
    rw [future_times_mem]
    constructor
    · rintro ⟨j, e, hj, hts, hnot, hlt⟩
      exact ⟨j, e, hj, hts, by simpa using hnot, hlt⟩
    · rintro ⟨i, e, hi, hts, hnot, hlt⟩
      exact ⟨i, e, hi, hts, by simpa using hnot, hlt⟩
  · intro hnone
    constructor
    · intro ex2
      unfold run_continuous_iter
      by_cases hend : (match endTime with | some t => decide (now ≥ t) | none => false) = true
      · rw [if_pos hend]
        intro h
        cases h
      · rw [if_neg hend]
        dsimp only
        rw [hnone]
        intro h
        cases h
    · intro hend
      unfold run_continuous_iter
      rw [if_neg (by rw [hend]; simp)]
      dsimp only
      rw [hnone]

theorem C6_get_next_due_min_and_loop_exit_witness :
    get_next_scheduled_time exampleSchedule
        ((check_and_execute devEcho 60 exampleSchedule [(0, 0)] 3600).2) 3600 = none ∧
    run_continuous_iter devEcho 60 exampleSchedule [(0, 0)] none 3600 =
      .stopExhausted ((check_and_execute devEcho 60 exampleSchedule [(0, 0)] 3600).2) := by
  have hnone : get_next_scheduled_time exampleSchedule
      ((check_and_execute devEcho 60 exampleSchedule [(0, 0)] 3600).2) 3600 = none := by
    rw [check_and_execute_eq]
    decide
  exact ⟨hnone,
    ((C6_get_next_due_min_and_loop_exit devEcho 60 exampleSchedule [(0, 0)] none
      3600).2.2.2 hnone).2 rfl⟩

/-- C7: `apply_setpoints` is total — every exception class raised by a
single `set_parameter` call is caught and categorised, whatever the
device does and whether or not the key resolves to a known wire key —
and each (key, value) pair is recorded in exactly one of the three
buckets: the bucket sizes sum to the number of setpoints and the
recorded parameter names are a permutation of the requested keys, so no
pair is silently dropped and no parser/transport error escapes into the
engine's poll loop. -/
theorem C7_every_setpoint_in_one_bucket (dev : Device) (sps : List (String × Rat)) :
    (apply_setpoints dev sps).success.length + (apply_setpoints dev sps).failed.length +
      (apply_setpoints dev sps).not_available.length = sps.length ∧
    ((apply_setpoints dev sps).success.map SetOutcome.param ++
      (apply_setpoints dev sps).failed.map FailOutcome.param ++
      (apply_setpoints dev sps).not_available.map FailOutcome.param).Perm
      (sps.map Prod.fst) := by
  induction sps with
  | nil => exact ⟨rfl, List.Perm.refl _⟩
  | cons kv rest ih =>
    obtain ⟨k, v⟩ := kv
    obtain ⟨ih1, ih2⟩ := ih
    unfold apply_setpoints
    cases hsp : (set_parameter dev k v).1 with
    | ok actual =>
      dsimp only
      refine ⟨by simp only [List.length_cons]; omega, ?_⟩
      simp only [List.map_cons, List.cons_append]
      exact ih2.cons k
    | error err =>
      cases err with
      | outOfRange =>
        dsimp only
        refine ⟨by simp only [List.length_cons]; omega, ?_⟩
        simp only [List.map_cons]
        refine List.Perm.trans (List.Perm.append_right _ List.perm_middle) ?_
        simp only [List.cons_append]
        exact ih2.cons k
      | jsonDecodeError =>
        dsimp only
        refine ⟨by simp only [List.length_cons]; omega, ?_⟩
        simp only [List.map_cons]
        refine List.Perm.trans (List.Perm.append_right _ List.perm_middle) ?_
        simp only [List.cons_append]
        exact ih2.cons k
      | requestException =>
        dsimp only
        refine ⟨by simp only [List.length_cons]; omega, ?_⟩
        simp only [List.map_cons]
        refine List.Perm.trans (List.Perm.append_right _ List.perm_middle) ?_
        simp only [List.cons_append]
        exact ih2.cons k
      | unsupported =>
        dsimp only
        refine ⟨by simp only [List.length_cons]; omega, ?_⟩
        simp only [List.map_cons]
        refine List.Perm.trans List.perm_middle (List.Perm.cons k ?_)
        exact ih2

/-! ## Fixed points of the repair pipeline (claim C9)

The pipeline is *not* idempotent on arbitrary text: because `re.sub`
matches do not overlap, `",,}"`-like runs lose only one comma per pass.
It does act as the identity — and is therefore idempotent — on every
text that already starts with `{`, ends with `}`, and contains no
remaining match site of any stage.  The predicates below decide the
existence of a match site for each stage. -/

/-- Does the text contain the one glyph that `re.sub(r'[„""]', '"', ·)`
actually rewrites? -/
def hasCurly (cs : List Char) : Bool :=
  cs.any (fun c => c = '„')

/-- Is there a match of `,\s*}` anywhere? -/
def hasCommaBrace : List Char → Bool
  | [] => false
  | c :: rest =>
    (decide (c = ',') && decide ((rest.dropWhile isPyWs).head? = some '}')) ||
      hasCommaBrace rest

/-- Is there a match of the bare-key pattern anywhere? -/
def hasKeyMatch : List Char → Bool
  | [] => false
  | c :: rest =>
    ((decide (c = ',') || decide (c = '{')) && (tryKeyMatch rest).isSome) ||
      hasKeyMatch rest

/-- Is there a match of the bareword-value pattern anywhere? -/
def hasBareMatch : List Char → Bool
  | [] => false
  | c :: rest =>
    (decide (c = ':') && (tryBareword rest).isSome) || hasBareMatch rest

theorem dropWhile_eq_self_head? {p : Char → Bool} {cs : List Char} {c : Char}
    (h : cs.head? = some c) (hp : p c = false) : cs.dropWhile p = cs := by
  cases cs with
  | nil => cases h
  | cons a l =>
    simp only [List.head?_cons, Option.some.injEq] at h
    subst h
    simp [List.dropWhile_cons, hp]

theorem pyStrip_eq_self {cs : List Char}
    (h1 : cs.head? = some '{') (h2 : cs.getLast? = some '}') : pyStrip cs = cs := by
  unfold pyStrip
  rw [dropWhile_eq_self_head? h1 (by decide)]
  have hrev : cs.reverse.head? = some '}' := by
    rw [List.head?_reverse]
    exact h2
  rw [dropWhile_eq_self_head? hrev (by decide), List.reverse_reverse]

theorem curlySub_eq_self {cs : List Char} (h : hasCurly cs = false) : curlySub cs = cs := by
  unfold curlySub
  induction cs with
  | nil => rfl
  | cons a l ih =>
    unfold hasCurly at h
    simp only [List.any_cons, Bool.or_eq_false_iff] at h
    obtain ⟨ha, hl⟩ := h
    simp only [List.map_cons]
    rw [ih hl]
    have hne : a ≠ '„' := by simpa using ha
    by_cases hq : a = '"'
    · subst hq
      simp [isCurlyQuote]
    · have : isCurlyQuote a = false := by
        unfold isCurlyQuote
        simp [hne, hq]
      simp [this]

theorem cbAux_eq_self {cs : List Char} (h : hasCommaBrace cs = false) : cbAux cs = cs := by
  induction cs with
  | nil => rfl
  | cons c rest ih =>
    unfold hasCommaBrace at h
    simp only [Bool.or_eq_false_iff, Bool.and_eq_false_iff] at h
    obtain ⟨hhead, htail⟩ := h
    rw [cbAux_cons]
    rw [if_neg ?hc, ih htail]
    case hc =>
      rintro ⟨hc1, hc2⟩
      rcases hhead with h' | h'
      · simp only [decide_eq_false_iff_not] at h'
        exact h' hc1
      · simp only [decide_eq_false_iff_not] at h'
        exact h' hc2

theorem ensure_braces_eq_self {cs : List Char}
    (h1 : cs.head? = some '{') (h2 : cs.getLast? = some '}')
    (h3 : hasCommaBrace cs = false) : ensure_braces cs = cs := by
  unfold ensure_braces
  rw [if_pos h1]
  simp only [if_pos h2]
  exact cbAux_eq_self h3

theorem qkAux_eq_self {cs : List Char} (h : hasKeyMatch cs = false) : qkAux cs = cs := by
  induction cs with
  | nil => rfl
  | cons c rest ih =>
    unfold hasKeyMatch at h
    simp only [Bool.or_eq_false_iff, Bool.and_eq_false_iff] at h
    obtain ⟨hhead, htail⟩ := h
    rw [qkAux_cons]
    by_cases hc : c = ',' ∨ c = '{'
    · rw [if_pos hc]
      have hnone : tryKeyMatch rest = none := by
        rcases hhead with h' | h'
        · exfalso
          rcases hc with rfl | rfl <;> simp at h'
        · exact Option.not_isSome_iff_eq_none.mp (by simp [h'])
      rw [hnone]
      rw [ih htail]
    · rw [if_neg hc, ih htail]

theorem qbAux_eq_self {cs : List Char} (h : hasBareMatch cs = false) : qbAux cs = cs := by
  induction cs with
  | nil => rfl
  | cons c rest ih =>
    unfold hasBareMatch at h
    simp only [Bool.or_eq_false_iff, Bool.and_eq_false_iff] at h
    obtain ⟨hhead, htail⟩ := h
    rw [qbAux_cons]
    by_cases hc : c = ':'
    · rw [if_pos hc]
      have hnone : tryBareword rest = none := by
        rcases hhead with h' | h'
        · exfalso
          subst hc
          simp at h'
        · exact Option.not_isSome_iff_eq_none.mp (by simp [h'])
      rw [hnone]
      rw [ih htail]
    · rw [if_neg hc, ih htail]

/-- C9 (amended): the repair pipeline is *not* idempotent on every input
text; it acts as the identity — and hence is idempotent — exactly on
texts that already carry outer braces and contain no remaining match
site of any stage (no `„` glyph, no comma before a closing brace, no
unquoted key site, no bareword-value site).  Typical once-repaired
outputs satisfy these conditions; inputs with stacked trailing commas
(see the counterexample) do not. -/
theorem C9_amended_repair_identity_on_clean (y : String)
    (h1 : y.data.head? = some '{')
    (h2 : y.data.getLast? = some '}')
    (hcu : hasCurly y.data = false)
    (hcb : hasCommaBrace y.data = false)
    (hqk : hasKeyMatch y.data = false)
    (hqb : hasBareMatch y.data = false) :
    repairText y = y ∧
    (∀ s : String, repairText s = y → repairText (repairText s) = repairText s) := by
  have hid : repairText y = y := by
    unfold repairText repairChars
    rw [pyStrip_eq_self h1 h2, curlySub_eq_self hcu,
        ensure_braces_eq_self h1 h2 hcb, qkAux_eq_self hqk, qbAux_eq_self hqb]
  refine ⟨hid, ?_⟩
  intro s hs
  rw [hs, hid]

theorem C9_amended_repair_identity_on_clean_witness :
    repairText (String.mk ['{', '"', 'a', '"', ':', '1', '}']) =
      String.mk ['{', '"', 'a', '"', ':', '1', '}'] ∧
    repairText (repairText (String.mk ['a', ':', '1', ','])) =
      repairText (String.mk ['a', ':', '1', ',']) := by
  have h := C9_amended_repair_identity_on_clean
    (String.mk ['{', '"', 'a', '"', ':', '1', '}'])
    rfl rfl (by decide) (by decide) (by decide) (by decide)
  exact ⟨h.1, h.2 (String.mk ['a', ':', '1', ',']) (by decide)⟩

/-- C9 (counterexample): the repair pipeline is not idempotent as
claimed.  On the input `a:1,,}` one pass leaves the text `{"a":1,}`
(the non-overlapping `re.sub` removed only the second comma), a second
pass removes the remaining trailing comma, and consequently parsing the
repaired text succeeds while parsing the original fails. -/
theorem C9_counterexample_not_idempotent :
    repairText (repairText (String.mk ['a', ':', '1', ',', ',', '}'])) ≠
      repairText (String.mk ['a', ':', '1', ',', ',', '}']) ∧
    parse_response (String.mk ['a', ':', '1', ',', ',', '}']) = .error () ∧
    parse_response (repairText (String.mk ['a', ':', '1', ',', ',', '}'])) =
      .ok (.obj [("a", .num 1)]) :=
  ⟨by decide, rfl, rfl⟩

/-! ## Claim C4: the repair pipeline on defective key/value responses

The family below generates exactly the defective texts of the claim: a
comma-separated list of `key: value` pairs with *no outer braces*, a
*trailing comma*, keys either bare identifiers or wrapped in quote
glyphs (including the `„` glyph the pipeline normalises), and values
that are either numeric literals or bare sentinel words.  The strict
renderer produces the hand-written JSON equivalent.  The theorem shows
the pipeline turns the defective rendering into exactly the strict
rendering, so both parse to the same structured data. -/

/-! ### Character-class disjointness facts -/

theorem digit_not_identStart {c : Char} (h : c.isDigit = true) : isIdentStart c = false := by
  have halpha : c.isAlpha = false := by
    unfold Char.isDigit at h
    unfold Char.isAlpha Char.isUpper Char.isLower
    simp only [Bool.and_eq_true, decide_eq_true_eq] at h
    simp only [Bool.or_eq_false_iff, Bool.and_eq_false_iff]
    obtain ⟨h1, h2⟩ := h
    constructor <;> [left; left] <;> simp only [decide_eq_false_iff_not, not_le] <;>
      · rcases c with ⟨⟨n, hn⟩, hv⟩
        simp_all [Char.le_def, UInt32.le_def, UInt32.lt_def]
        omega
  have hu : c ≠ '_' := by
    intro heq
    rw [heq] at h
    exact absurd h (by decide)
  unfold isIdentStart
  simp [halpha, hu]

theorem identChar_not_ws {c : Char} (h : isIdentChar c = true) : isPyWs c = false := by
  by_contra hw
  rw [Bool.not_eq_false] at hw
  unfold isPyWs at hw
  simp only [Bool.or_eq_true, decide_eq_true_eq] at hw
  rcases hw with ((((rfl | rfl) | rfl) | rfl) | rfl) | rfl <;> exact absurd h (by decide)

theorem identChar_ne {c : Char} (h : isIdentChar c = true) :
    c ≠ ',' ∧ c ≠ '{' ∧ c ≠ '}' ∧ c ≠ ':' ∧ c ≠ '"' ∧ c ≠ '„' := by
  refine ⟨?_, ?_, ?_, ?_, ?_, ?_⟩ <;> (intro heq; rw [heq] at h; exact absurd h (by decide))

theorem identChar_not_rstrip {c : Char} (h : isIdentChar c = true) : isRStripChar c = false := by
  by_contra hw
  rw [Bool.not_eq_false] at hw
  unfold isRStripChar at hw
  simp only [Bool.or_eq_true, decide_eq_true_eq] at hw
  rcases hw with (((rfl | rfl) | rfl) | rfl) | rfl <;> exact absurd h (by decide)

theorem bareChar_not_ws {c : Char} (h : isBareChar c = true) : isPyWs c = false := by
  by_contra hw
  rw [Bool.not_eq_false] at hw
  unfold isPyWs at hw
  simp only [Bool.or_eq_true, decide_eq_true_eq] at hw
  rcases hw with ((((rfl | rfl) | rfl) | rfl) | rfl) | rfl <;> exact absurd h (by decide)

theorem bareChar_ne {c : Char} (h : isBareChar c = true) :
    c ≠ ',' ∧ c ≠ '{' ∧ c ≠ '}' ∧ c ≠ ':' ∧ c ≠ '"' ∧ c ≠ '„' := by
  refine ⟨?_, ?_, ?_, ?_, ?_, ?_⟩ <;> (intro heq; rw [heq] at h; exact absurd h (by decide))

theorem bareChar_not_rstrip {c : Char} (h : isBareChar c = true) : isRStripChar c = false := by
  by_contra hw
  rw [Bool.not_eq_false] at hw
  unfold isRStripChar at hw
  simp only [Bool.or_eq_true, decide_eq_true_eq] at hw
  rcases hw with (((rfl | rfl) | rfl) | rfl) | rfl <;> exact absurd h (by decide)

theorem identStart_not_ws {c : Char} (h : isIdentStart c = true) : isPyWs c = false := by
  by_contra hw
  rw [Bool.not_eq_false] at hw
  unfold isPyWs at hw
  simp only [Bool.or_eq_true, decide_eq_true_eq] at hw
  rcases hw with ((((rfl | rfl) | rfl) | rfl) | rfl) | rfl <;> exact absurd h (by decide)

theorem identStart_ne {c : Char} (h : isIdentStart c = true) :
    c ≠ '{' ∧ c ≠ '}' ∧ c ≠ '"' := by
  refine ⟨?_, ?_, ?_⟩ <;> (intro heq; rw [heq] at h; exact absurd h (by decide))

theorem ws_ne {c : Char} (h : isPyWs c = true) : c ≠ ',' ∧ c ≠ '{' ∧ c ≠ ':' := by
  unfold isPyWs at h
  simp only [Bool.or_eq_true, decide_eq_true_eq] at h
  rcases h with ((((rfl | rfl) | rfl) | rfl) | rfl) | rfl <;> exact ⟨by decide, by decide, by decide⟩

theorem numChar_bare {c : Char} (h : (c.isDigit || c = '.') = true) : isBareChar c = true := by
  unfold isBareChar
  simp only [Bool.or_eq_true, decide_eq_true_eq] at h ⊢
  tauto

/-! ### The input family and its renderers -/

/-- A value of a defective response: a numeric literal or a bareword. -/
inductive FVal where
  | fnum (ds : List Char) : FVal
  | fbare (w : List Char) : FVal

/-- A key of a defective response: a bare identifier, or an identifier
wrapped in quote glyphs (standard or `„`). -/
inductive FKey where
  | kbare (k : List Char) : FKey
  | kquoted (gl gr : Char) (k : List Char) : FKey

structure FPair where
  key : FKey
  val : FVal

def identOk (k : List Char) : Bool :=
  !k.isEmpty && isIdentStart k.headI && k.all isIdentChar

def numOk (ds : List Char) : Bool :=
  !ds.isEmpty && ds.headI.isDigit && ds.all (fun c => c.isDigit || c = '.')

def bareOk (w : List Char) : Bool :=
  !w.isEmpty && isIdentStart w.headI && w.all isBareChar

def glyphOk (g : Char) : Bool :=
  g = '"' || g = '„'

def keyOk : FKey → Bool
  | .kbare k => identOk k
  | .kquoted gl gr k => glyphOk gl && glyphOk gr && identOk k

def valOk : FVal → Bool
  | .fnum ds => numOk ds
  | .fbare w => bareOk w

def pairOk (p : FPair) : Bool := keyOk p.key && valOk p.val

/-- The identifier inside a key. -/
def keyIdent : FKey → List Char
  | .kbare k => k
  | .kquoted _ _ k => k

/-- Defective rendering of a key. -/
def renderKeyD : FKey → List Char
  | .kbare k => k
  | .kquoted gl gr k => gl :: (k ++ [gr])

def renderVal : FVal → List Char
  | .fnum ds => ds
  | .fbare w => w

/-- One defective `key: value` chunk. -/
def renderPairD (p : FPair) : List Char :=
  renderKeyD p.key ++ ':' :: ' ' :: renderVal p.val

/-- Defective body: pairs joined by `", "`. -/
def renderBodyD : List FPair → List Char
  | [] => []
  | [p] => renderPairD p
  | p :: q :: ps => renderPairD p ++ ',' :: ' ' :: renderBodyD (q :: ps)

/-- The full defective response: no braces, and a trailing comma. -/
def defectiveChars (ps : List FPair) : List Char :=
  renderBodyD ps ++ [',']

/-- Glyph-normalised key (the output of the quote-glyph substitution). -/
def normKey : FKey → FKey
  | .kbare k => .kbare k
  | .kquoted _ _ k => .kquoted '"' '"' k

def normPair (p : FPair) : FPair := ⟨normKey p.key, p.val⟩

/-- The chunk after key-quoting: key in standard quotes, value
untouched. -/
def renderPairM (p : FPair) : List Char :=
  '"' :: (keyIdent p.key ++ '"' :: ':' :: ' ' :: renderVal p.val)

def renderBodyM : List FPair → List Char
  | [] => []
  | [p] => renderPairM p
  | p :: q :: ps => renderPairM p ++ ',' :: ' ' :: renderBodyM (q :: ps)

/-- The strict chunk: numeric values keep their `": "` spacing, quoted
bareword values lose the space (the regex replacement drops it). -/
def renderPairS (p : FPair) : List Char :=
  '"' :: (keyIdent p.key ++ '"' ::
    (match p.val with
     | .fnum ds => ':' :: ' ' :: ds
     | .fbare w => ':' :: '"' :: (w ++ ['"'])))

def renderBodyS : List FPair → List Char
  | [] => []
  | [p] => renderPairS p
  | p :: q :: ps => renderPairS p ++ ',' :: ' ' :: renderBodyS (q :: ps)

/-- The hand-written strict-JSON equivalent of the defective response. -/
def strictChars (ps : List FPair) : List Char :=
  '{' :: (renderBodyS ps ++ ['}'])

/-! ### Scanning utilities -/

theorem takeWhile_append_all {p : Char → Bool} :
    ∀ {l r : List Char}, (∀ c ∈ l, p c = true) →
      (l ++ r).takeWhile p = l ++ r.takeWhile p := by
  intro l
  induction l with
  | nil => intro r h; simp
  | cons a l ih =>
    intro r h
    have ha : p a = true := h a (List.mem_cons_self _ _)
    simp only [List.cons_append, List.takeWhile_cons, ha, if_true]
    rw [ih (fun c hc => h c (List.mem_cons_of_mem a hc))]

theorem dropWhile_append_all {p : Char → Bool} :
    ∀ {l r : List Char}, (∀ c ∈ l, p c = true) →
      (l ++ r).dropWhile p = r.dropWhile p := by
  intro l
  induction l with
  | nil => intro r h; simp
  | cons a l ih =>
    intro r h
    have ha : p a = true := h a (List.mem_cons_self _ _)
    simp only [List.cons_append, List.dropWhile_cons, ha, if_true]
    exact ih (fun c hc => h c (List.mem_cons_of_mem a hc))

theorem takeWhile_eq_nil_head {p : Char → Bool} {c : Char} (cs : List Char)
    (h : cs.head? = some c) (hp : p c = false) : cs.takeWhile p = [] := by
  cases cs with
  | nil => cases h
  | cons a l =>
    simp only [List.head?_cons, Option.some.injEq] at h
    subst h
    simp [List.takeWhile_cons, hp]

/-! ### Computing the key and bareword matches on rendered text -/

theorem tryKeyMatch_render {sp k rest : List Char}
    (hsp : ∀ c ∈ sp, isPyWs c = true) (hk : identOk k = true) :
    tryKeyMatch (sp ++ (k ++ ':' :: rest)) = some (sp, k, rest) := by
  cases k with
  | nil => simp [identOk] at hk
  | cons c k' =>
    unfold identOk at hk
    simp only [Bool.and_eq_true, List.all_eq_true] at hk
    obtain ⟨⟨-, hstart⟩, hall⟩ := hk
    simp only [List.headI_cons] at hstart
    have hcid : isIdentChar c = true := hall c (List.mem_cons_self _ _)
    have hcws : isPyWs c = false := identChar_not_ws hcid
    have h1 : List.dropWhile isPyWs (sp ++ ((c :: k') ++ ':' :: rest)) =
        (c :: k') ++ ':' :: rest := by
      rw [dropWhile_append_all hsp]
      exact dropWhile_eq_self_head? rfl hcws
    have h2 : List.takeWhile isPyWs (sp ++ ((c :: k') ++ ':' :: rest)) = sp := by
      rw [takeWhile_append_all hsp]
      rw [takeWhile_eq_nil_head ((c :: k') ++ ':' :: rest) rfl hcws]
      simp
    have h3 : List.takeWhile isIdentChar ((c :: k') ++ ':' :: rest) = c :: k' := by
      rw [takeWhile_append_all (fun x hx => hall x hx)]
      rw [takeWhile_eq_nil_head (':' :: rest) rfl (by decide)]
      simp
    have h4 : List.dropWhile isIdentChar ((c :: k') ++ ':' :: rest) = ':' :: rest := by
      rw [dropWhile_append_all (fun x hx => hall x hx)]
      exact dropWhile_eq_self_head? rfl (by decide)
    have h5 : List.dropWhile isPyWs (':' :: rest) = ':' :: rest :=
      dropWhile_eq_self_head? rfl (by decide)
    simp only [tryKeyMatch, h1, h2, h3, h4, h5]
    simp [hstart]

theorem tryKeyMatch_quote {sp rest : List Char}
    (hsp : ∀ c ∈ sp, isPyWs c = true) :
    tryKeyMatch (sp ++ '"' :: rest) = none := by
  have h1 : List.dropWhile isPyWs (sp ++ '"' :: rest) = '"' :: rest := by
    rw [dropWhile_append_all hsp]
    exact dropWhile_eq_self_head? rfl (by decide)
  have h2 : List.takeWhile isIdentChar ('"' :: rest) = [] :=
    takeWhile_eq_nil_head ('"' :: rest) rfl (by decide)
  simp only [tryKeyMatch, h1, h2]
  simp

theorem tryBareword_num {ds rest : List Char} (hnum : numOk ds = true)
    (hr : rest.head? = some ',' ∨ rest.head? = some '}') :
    tryBareword (' ' :: (ds ++ rest)) = none := by
  cases ds with
  | nil => simp [numOk] at hnum
  | cons c ds' =>
    unfold numOk at hnum
    simp only [Bool.and_eq_true, List.all_eq_true] at hnum
    obtain ⟨⟨-, hdig⟩, hall⟩ := hnum
    simp only [List.headI_cons] at hdig
    have hbare : ∀ x ∈ c :: ds', isBareChar x = true := fun x hx => numChar_bare (hall x hx)
    have hrestbare : List.takeWhile isBareChar rest = [] := by
      rcases hr with hr | hr
      · exact takeWhile_eq_nil_head rest hr (by decide)
      · exact takeWhile_eq_nil_head rest hr (by decide)
    have h1 : List.dropWhile isPyWs (' ' :: ((c :: ds') ++ rest)) = (c :: ds') ++ rest := by
      rw [show (' ' :: ((c :: ds') ++ rest)) = ([' '] ++ ((c :: ds') ++ rest)) from rfl]
      rw [dropWhile_append_all (by intro x hx; simp at hx; subst hx; rfl)]
      exact dropWhile_eq_self_head? rfl (bareChar_not_ws (hbare c (List.mem_cons_self _ _)))
    have h2 : List.takeWhile isBareChar ((c :: ds') ++ rest) = c :: ds' := by
      rw [takeWhile_append_all hbare, hrestbare]
      simp
    simp only [tryBareword, h1, h2]
    rw [if_neg]
    rintro ⟨-, hstart, -⟩
    rw [List.headI_cons] at hstart
    rw [digit_not_identStart hdig] at hstart
    cases hstart

theorem tryBareword_bare {w rest : List Char} (hw : bareOk w = true)
    (hr : rest.head? = some ',' ∨ rest.head? = some '}') :
    tryBareword (' ' :: (w ++ rest)) = some (w, rest) := by
  cases w with
  | nil => simp [bareOk] at hw
  | cons c w' =>
    unfold bareOk at hw
    simp only [Bool.and_eq_true, List.all_eq_true] at hw
    obtain ⟨⟨-, hstart⟩, hall⟩ := hw
    simp only [List.headI_cons] at hstart
    have hrestbare : List.takeWhile isBareChar rest = [] := by
      rcases hr with hr | hr
      · exact takeWhile_eq_nil_head rest hr (by decide)
      · exact takeWhile_eq_nil_head rest hr (by decide)
    have hrestdrop : List.dropWhile isBareChar rest = rest := by
      rcases hr with hr | hr
      · exact dropWhile_eq_self_head? hr (by decide)
      · exact dropWhile_eq_self_head? hr (by decide)
    have hrestws : List.dropWhile isPyWs rest = rest := by
      rcases hr with hr | hr
      · exact dropWhile_eq_self_head? hr (by decide)
      · exact dropWhile_eq_self_head? hr (by decide)
    have h1 : List.dropWhile isPyWs (' ' :: ((c :: w') ++ rest)) = (c :: w') ++ rest := by
      rw [show (' ' :: ((c :: w') ++ rest)) = ([' '] ++ ((c :: w') ++ rest)) from rfl]
      rw [dropWhile_append_all (by intro x hx; simp at hx; subst hx; rfl)]
      exact dropWhile_eq_self_head? rfl (bareChar_not_ws (hall c (List.mem_cons_self _ _)))
    have h2 : List.takeWhile isBareChar ((c :: w') ++ rest) = c :: w' := by
      rw [takeWhile_append_all hall, hrestbare]
      simp
    have h3 : List.dropWhile isBareChar ((c :: w') ++ rest) = rest := by
      rw [dropWhile_append_all hall]
      exact hrestdrop
    simp only [tryBareword, h1, h2, h3, hrestws]
    rw [if_pos]
    refine ⟨by simp, by simpa using hstart, ?_⟩
    rcases hr with hr | hr
    · exact Or.inl hr
    · exact Or.inr hr

/-! ### Copy lemmas: the scanners pass over trigger-free chunks -/

theorem cb_copy {l r : List Char} (h : ∀ c ∈ l, c ≠ ',') :
    cbAux (l ++ r) = l ++ cbAux r := by
  induction l with
  | nil => rfl
  | cons c l' ih =>
    simp only [List.cons_append]
    rw [cbAux_cons]
    rw [if_neg (fun hc => h c (List.mem_cons_self _ _) hc.1)]
    rw [ih (fun x hx => h x (List.mem_cons_of_mem c hx))]

theorem qk_copy {l r : List Char} (h : ∀ c ∈ l, ¬(c = ',' ∨ c = '{')) :
    qkAux (l ++ r) = l ++ qkAux r := by
  induction l with
  | nil => rfl
  | cons c l' ih =>
    simp only [List.cons_append]
    rw [qkAux_cons]
    rw [if_neg (h c (List.mem_cons_self _ _))]
    rw [ih (fun x hx => h x (List.mem_cons_of_mem c hx))]

theorem qb_copy {l r : List Char} (h : ∀ c ∈ l, c ≠ ':') :
    qbAux (l ++ r) = l ++ qbAux r := by
  induction l with
  | nil => rfl
  | cons c l' ih =>
    simp only [List.cons_append]
    rw [qbAux_cons]
    rw [if_neg (h c (List.mem_cons_self _ _))]
    rw [ih (fun x hx => h x (List.mem_cons_of_mem c hx))]

/-! ### Structure of the rendered text -/

theorem renderPairD_chars {p : FPair} (hp : pairOk p = true) :
    ∀ c ∈ renderPairD p, c ≠ ',' ∧ c ≠ '{' ∧ c ≠ '}' := by
  unfold pairOk at hp
  simp only [Bool.and_eq_true] at hp
  obtain ⟨hkey, hval⟩ := hp
  intro c hc
  unfold renderPairD at hc
  rcases List.mem_append.mp hc with hck | hcv
  · cases hk : p.key with
    | kbare k =>
      rw [hk] at hck hkey
      unfold renderKeyD at hck
      unfold keyOk identOk at hkey
      simp only [Bool.and_eq_true, List.all_eq_true] at hkey
      have := identChar_ne (hkey.2 c hck)
      exact ⟨this.1, this.2.1, this.2.2.1⟩
    | kquoted gl gr k =>
      rw [hk] at hck hkey
      unfold renderKeyD at hck
      unfold keyOk identOk at hkey
      simp only [Bool.and_eq_true, List.all_eq_true] at hkey
      obtain ⟨⟨hgl, hgr⟩, -, hall⟩ := hkey
      rcases List.mem_cons.mp hck with rfl | hck'
      · unfold glyphOk at hgl
        simp only [Bool.or_eq_true, decide_eq_true_eq] at hgl
        rcases hgl with rfl | rfl <;> exact ⟨by decide, by decide, by decide⟩
      · rcases List.mem_append.mp hck' with hcm | hcg
        · have := identChar_ne (hall c hcm)
          exact ⟨this.1, this.2.1, this.2.2.1⟩
        · simp only [List.mem_singleton] at hcg
          subst hcg
          unfold glyphOk at hgr
          simp only [Bool.or_eq_true, decide_eq_true_eq] at hgr
          rcases hgr with rfl | rfl <;> exact ⟨by decide, by decide, by decide⟩
  · rcases List.mem_cons.mp hcv with rfl | hcv'
    · exact ⟨by decide, by decide, by decide⟩
    · rcases List.mem_cons.mp hcv' with rfl | hcv2
      · exact ⟨by decide, by decide, by decide⟩
      · cases hv : p.val with
        | fnum ds =>
          rw [hv] at hcv2 hval
          unfold renderVal at hcv2
          unfold valOk numOk at hval
          simp only [Bool.and_eq_true, List.all_eq_true] at hval
          have := bareChar_ne (numChar_bare (hval.2 c hcv2))
          exact ⟨this.1, this.2.1, this.2.2.1⟩
        | fbare w =>
          rw [hv] at hcv2 hval
          unfold renderVal at hcv2
          unfold valOk bareOk at hval
          simp only [Bool.and_eq_true, List.all_eq_true] at hval
          have := bareChar_ne (hval.2 c hcv2)
          exact ⟨this.1, this.2.1, this.2.2.1⟩

/-- A well-formed normalised chunk after key-quoting contains no `:`
outside its single separator... more precisely, the key part contains
none. -/
theorem renderPairM_key_chars {p : FPair} (hp : pairOk p = true) :
    ∀ c ∈ ('"' :: (keyIdent p.key ++ ['"'])), c ≠ ':' := by
  unfold pairOk at hp
  simp only [Bool.and_eq_true] at hp
  obtain ⟨hkey, -⟩ := hp
  intro c hc
  rcases List.mem_cons.mp hc with rfl | hc'
  · decide
  · rcases List.mem_append.mp hc' with hcm | hcg
    · cases hk : p.key with
      | kbare k =>
        rw [hk] at hcm hkey
        unfold keyOk identOk at hkey
        simp only [Bool.and_eq_true, List.all_eq_true] at hkey
        exact (identChar_ne (hkey.2 c hcm)).2.2.2.1
      | kquoted gl gr k =>
        rw [hk] at hcm hkey
        unfold keyOk identOk at hkey
        simp only [Bool.and_eq_true, List.all_eq_true] at hkey
        exact (identChar_ne (hkey.2.2 c hcm)).2.2.2.1
    · simp only [List.mem_singleton] at hcg
      subst hcg
      decide

theorem renderVal_chars_ne_colon {v : FVal} (hv : valOk v = true) :
    ∀ c ∈ renderVal v, c ≠ ':' := by
  intro c hc
  cases v with
  | fnum ds =>
    unfold valOk numOk at hv
    simp only [Bool.and_eq_true, List.all_eq_true] at hv
    exact (bareChar_ne (numChar_bare (hv.2 c hc))).2.2.2.1
  | fbare w =>
    unfold valOk bareOk at hv
    simp only [Bool.and_eq_true, List.all_eq_true] at hv
    exact (bareChar_ne (hv.2 c hc)).2.2.2.1

/-- The head of a rendered pair: not whitespace, not a brace, not a
comma, not a colon. -/
theorem renderPairD_head {p : FPair} (hp : pairOk p = true) :
    ∃ c t, renderPairD p = c :: t ∧ isPyWs c = false ∧ c ≠ '{' ∧ c ≠ '}' := by
  unfold pairOk at hp
  simp only [Bool.and_eq_true] at hp
  obtain ⟨hkey, -⟩ := hp
  cases hk : p.key with
  | kbare k =>
    rw [hk] at hkey
    unfold keyOk identOk at hkey
    simp only [Bool.and_eq_true, List.all_eq_true] at hkey
    obtain ⟨⟨hne, hstart⟩, -⟩ := hkey
    cases k with
    | nil => simp at hne
    | cons c k' =>
      simp only [List.headI_cons] at hstart
      refine ⟨c, k' ++ ':' :: ' ' :: renderVal p.val, ?_, ?_, ?_, ?_⟩
      · unfold renderPairD
        rw [hk]
        rfl
      · exact identStart_not_ws hstart
      · exact (identStart_ne hstart).1
      · exact (identStart_ne hstart).2.1
  | kquoted gl gr k =>
    rw [hk] at hkey
    unfold keyOk at hkey
    simp only [Bool.and_eq_true] at hkey
    obtain ⟨⟨hgl, -⟩, -⟩ := hkey
    refine ⟨gl, (k ++ [gr]) ++ ':' :: ' ' :: renderVal p.val, ?_, ?_, ?_, ?_⟩
    · unfold renderPairD
      rw [hk]
      rfl
    · unfold glyphOk at hgl
      simp only [Bool.or_eq_true, decide_eq_true_eq] at hgl
      rcases hgl with rfl | rfl <;> decide
    · unfold glyphOk at hgl
      simp only [Bool.or_eq_true, decide_eq_true_eq] at hgl
      rcases hgl with rfl | rfl <;> decide
    · unfold glyphOk at hgl
      simp only [Bool.or_eq_true, decide_eq_true_eq] at hgl
      rcases hgl with rfl | rfl <;> decide

theorem renderBodyD_head {ps : List FPair} (hne : ps ≠ []) (hwf : ps.all pairOk = true) :
    ∃ c t, renderBodyD ps = c :: t ∧ isPyWs c = false ∧ c ≠ '{' ∧ c ≠ '}' := by
  cases ps with
  | nil => exact absurd rfl hne
  | cons p rest =>
    simp only [List.all_cons, Bool.and_eq_true] at hwf
    obtain ⟨c, t, hpair, h1, h2, h3⟩ := renderPairD_head hwf.1
    cases rest with
    | nil => exact ⟨c, t, by simpa [renderBodyD] using hpair, h1, h2, h3⟩
    | cons q rest' =>
      refine ⟨c, t ++ ',' :: ' ' :: renderBodyD (q :: rest'), ?_, h1, h2, h3⟩
      show renderPairD p ++ ',' :: ' ' :: renderBodyD (q :: rest') = _
      rw [hpair]
      rfl

theorem getLast?_append_right {α : Type} {l m : List α} {b : α}
    (hm : m.getLast? = some b) : (l ++ m).getLast? = some b := by
  rw [List.getLast?_append, hm]
  rfl

/-- The last character of a rendered value is never stripped by
`rstrip(", \r\n\t")`. -/
theorem renderVal_last {v : FVal} (hv : valOk v = true) :
    ∃ b, (renderVal v).getLast? = some b ∧ isRStripChar b = false := by
  have hne : renderVal v ≠ [] := by
    cases v with
    | fnum ds =>
      unfold valOk numOk at hv
      simp only [Bool.and_eq_true] at hv
      obtain ⟨⟨h, -⟩, -⟩ := hv
      simpa [renderVal] using h
    | fbare w =>
      unfold valOk bareOk at hv
      simp only [Bool.and_eq_true] at hv
      obtain ⟨⟨h, -⟩, -⟩ := hv
      simpa [renderVal] using h
  obtain ⟨b, hb⟩ := Option.ne_none_iff_exists'.mp
    (fun hcontra => hne (List.getLast?_eq_none_iff.mp hcontra))
  refine ⟨b, hb, ?_⟩
  have hmem : b ∈ renderVal v := List.mem_of_mem_getLast? hb
  cases v with
  | fnum ds =>
    unfold valOk numOk at hv
    simp only [Bool.and_eq_true, List.all_eq_true] at hv
    exact bareChar_not_rstrip (numChar_bare (hv.2 b hmem))
  | fbare w =>
    unfold valOk bareOk at hv
    simp only [Bool.and_eq_true, List.all_eq_true] at hv
    exact bareChar_not_rstrip (hv.2 b hmem)

theorem renderPairD_last {p : FPair} (hp : pairOk p = true) :
    ∃ b, (renderPairD p).getLast? = some b ∧ isRStripChar b = false := by
  unfold pairOk at hp
  simp only [Bool.and_eq_true] at hp
  obtain ⟨b, hb, hrs⟩ := renderVal_last hp.2
  refine ⟨b, ?_, hrs⟩
  unfold renderPairD
  apply getLast?_append_right
  show (':' :: ' ' :: renderVal p.val).getLast? = some b
  have hvne : renderVal p.val ≠ [] := by
    intro hcontra
    rw [hcontra] at hb
    cases hb
  cases hval : renderVal p.val with
  | nil => exact absurd hval hvne
  | cons x xs =>
    rw [hval] at hb
    rw [List.getLast?_cons_cons, List.getLast?_cons_cons]
    exact hb

theorem renderBodyD_last {ps : List FPair} (hne : ps ≠ []) (hwf : ps.all pairOk = true) :
    ∃ b, (renderBodyD ps).getLast? = some b ∧ isRStripChar b = false := by
  induction ps with
  | nil => exact absurd rfl hne
  | cons p rest ih =>
    simp only [List.all_cons, Bool.and_eq_true] at hwf
    cases rest with
    | nil =>
      obtain ⟨b, hb, hrs⟩ := renderPairD_last hwf.1
      exact ⟨b, hb, hrs⟩
    | cons q rest' =>
      obtain ⟨b, hb, hrs⟩ := ih (by simp) hwf.2
      refine ⟨b, ?_, hrs⟩
      show (renderPairD p ++ ',' :: ' ' :: renderBodyD (q :: rest')).getLast? = some b
      apply getLast?_append_right
      have hbne : renderBodyD (q :: rest') ≠ [] := by
        intro hcontra
        rw [hcontra] at hb
        cases hb
      cases hbody : renderBodyD (q :: rest') with
      | nil => exact absurd hbody hbne
      | cons x xs =>
        rw [hbody] at hb
        rw [List.getLast?_cons_cons, List.getLast?_cons_cons]
        exact hb

/-! ### Stage 1: `strip()` leaves the defective rendering unchanged -/

theorem pyStrip_eq_self_of {cs : List Char} {a b : Char}
    (h1 : cs.head? = some a) (ha : isPyWs a = false)
    (h2 : cs.getLast? = some b) (hb : isPyWs b = false) : pyStrip cs = cs := by
  unfold pyStrip
  rw [dropWhile_eq_self_head? h1 ha]
  have hrev : cs.reverse.head? = some b := by
    rw [List.head?_reverse]
    exact h2
  rw [dropWhile_eq_self_head? hrev hb, List.reverse_reverse]

theorem stage1_strip {ps : List FPair} (hne : ps ≠ []) (hwf : ps.all pairOk = true) :
    pyStrip (defectiveChars ps) = defectiveChars ps := by
  obtain ⟨c, t, hbody, hws, -, -⟩ := renderBodyD_head hne hwf
  refine pyStrip_eq_self_of (a := c) (b := ',') ?_ hws ?_ (by decide)
  · unfold defectiveChars
    rw [hbody]
    rfl
  · unfold defectiveChars
    exact List.getLast?_concat _

/-! ### Stage 2: quote-glyph normalisation rewrites exactly the key
glyphs -/

theorem curlySub_append (l r : List Char) :
    curlySub (l ++ r) = curlySub l ++ curlySub r :=
  List.map_append _ _ _

theorem curlySub_eq_self_of_chars {l : List Char}
    (h : ∀ c ∈ l, isCurlyQuote c = false) : curlySub l = l := by
  unfold curlySub
  induction l with
  | nil => rfl
  | cons a l' ih =>
    simp only [List.map_cons]
    rw [ih (fun c hc => h c (List.mem_cons_of_mem a hc))]
    simp [h a (List.mem_cons_self _ _)]

theorem identChar_not_curly {c : Char} (h : isIdentChar c = true) : isCurlyQuote c = false := by
  have hne := identChar_ne h
  unfold isCurlyQuote
  simp only [Bool.or_eq_false_iff, decide_eq_false_iff_not]
  exact ⟨hne.2.2.2.2.2, hne.2.2.2.2.1⟩

theorem bareChar_not_curly {c : Char} (h : isBareChar c = true) : isCurlyQuote c = false := by
  have hne := bareChar_ne h
  unfold isCurlyQuote
  simp only [Bool.or_eq_false_iff, decide_eq_false_iff_not]
  exact ⟨hne.2.2.2.2.2, hne.2.2.2.2.1⟩

theorem curlySub_val {v : FVal} (hv : valOk v = true) : curlySub (renderVal v) = renderVal v := by
  apply curlySub_eq_self_of_chars
  intro c hc
  cases v with
  | fnum ds =>
    unfold valOk numOk at hv
    simp only [Bool.and_eq_true, List.all_eq_true] at hv
    exact bareChar_not_curly (numChar_bare (hv.2 c hc))
  | fbare w =>
    unfold valOk bareOk at hv
    simp only [Bool.and_eq_true, List.all_eq_true] at hv
    exact bareChar_not_curly (hv.2 c hc)

theorem curlySub_pairD {p : FPair} (hp : pairOk p = true) :
    curlySub (renderPairD p) = renderPairD (normPair p) := by
  obtain ⟨pk, pv⟩ := p
  unfold pairOk at hp
  simp only [Bool.and_eq_true] at hp
  obtain ⟨hkey, hval⟩ := hp
  have hvalsub : curlySub (renderVal pv) = renderVal pv := curlySub_val hval
  cases pk with
  | kbare k =>
    show curlySub (k ++ ':' :: ' ' :: renderVal pv) = k ++ ':' :: ' ' :: renderVal pv
    rw [curlySub_append]
    have hkid : curlySub k = k := by
      unfold keyOk identOk at hkey
      simp only [Bool.and_eq_true, List.all_eq_true] at hkey
      exact curlySub_eq_self_of_chars (fun c hc => identChar_not_curly (hkey.2 c hc))
    rw [hkid]
    show k ++ (':' :: ' ' :: curlySub (renderVal pv)) = _
    rw [hvalsub]
  | kquoted gl gr k =>
    unfold keyOk identOk at hkey
    simp only [Bool.and_eq_true, List.all_eq_true] at hkey
    obtain ⟨⟨hgl, hgr⟩, -, hall⟩ := hkey
    have hglq : (if isCurlyQuote gl then '"' else gl) = '"' := by
      unfold glyphOk at hgl
      simp only [Bool.or_eq_true, decide_eq_true_eq] at hgl
      rcases hgl with rfl | rfl <;> decide
    have hgrq : (if isCurlyQuote gr then '"' else gr) = '"' := by
      unfold glyphOk at hgr
      simp only [Bool.or_eq_true, decide_eq_true_eq] at hgr
      rcases hgr with rfl | rfl <;> decide
    have hkid : curlySub k = k :=
      curlySub_eq_self_of_chars (fun c hc => identChar_not_curly (hall c hc))
    show curlySub ((gl :: (k ++ [gr])) ++ ':' :: ' ' :: renderVal pv) =
      (('"' : Char) :: (k ++ ['"'])) ++ ':' :: ' ' :: renderVal pv
    rw [curlySub_append]
    show (if isCurlyQuote gl then '"' else gl) ::
        (curlySub (k ++ [gr]) ++ curlySub (':' :: ' ' :: renderVal pv)) = _
    rw [hglq, curlySub_append, hkid]
    show ('"' : Char) :: ((k ++ [if isCurlyQuote gr then '"' else gr]) ++
        (':' :: ' ' :: curlySub (renderVal pv))) = _
    rw [hgrq, hvalsub]
    simp [List.append_assoc]

theorem stage2_curly {ps : List FPair} (hwf : ps.all pairOk = true) :
    curlySub (defectiveChars ps) = defectiveChars (ps.map normPair) := by
  unfold defectiveChars
  rw [curlySub_append]
  have hcomma : curlySub [','] = [','] := by decide
  rw [hcomma]
  congr 1
  induction ps with
  | nil => rfl
  | cons p rest ih =>
    simp only [List.all_cons, Bool.and_eq_true] at hwf
    cases rest with
    | nil =>
      show curlySub (renderPairD p) = renderBodyD [normPair p]
      rw [curlySub_pairD hwf.1]
      rfl
    | cons q rest' =>
      show curlySub (renderPairD p ++ ',' :: ' ' :: renderBodyD (q :: rest')) = _
      rw [curlySub_append, curlySub_pairD hwf.1]
      show renderPairD (normPair p) ++
          (',' :: ' ' :: curlySub (renderBodyD (q :: rest'))) = _
      rw [ih hwf.2]
      rfl

/-- Normalisation preserves well-formedness. -/
theorem norm_wf {ps : List FPair} (hwf : ps.all pairOk = true) :
    (ps.map normPair).all pairOk = true := by
  induction ps with
  | nil => rfl
  | cons p rest ih =>
    simp only [List.all_cons, Bool.and_eq_true, List.map_cons] at hwf ⊢
    refine ⟨?_, ih hwf.2⟩
    obtain ⟨pk, pv⟩ := p
    have hp := hwf.1
    unfold pairOk at hp ⊢
    simp only [Bool.and_eq_true] at hp ⊢
    refine ⟨?_, hp.2⟩
    cases pk with
    | kbare k => exact hp.1
    | kquoted gl gr k =>
      show keyOk (FKey.kquoted '"' '"' k) = true
      unfold keyOk
      have hk := hp.1
      unfold keyOk at hk
      simp only [Bool.and_eq_true] at hk ⊢
      exact ⟨⟨by decide, by decide⟩, hk.2⟩

/-- After normalisation every quoted key carries standard quotes. -/
def pairNorm (p : FPair) : Bool :=
  match p.key with
  | .kbare _ => true
  | .kquoted gl gr _ => decide (gl = '"') && decide (gr = '"')

theorem map_normPair_all_pairNorm (ps : List FPair) : (ps.map normPair).all pairNorm = true := by
  induction ps with
  | nil => rfl
  | cons p rest ih =>
    simp only [List.map_cons, List.all_cons, Bool.and_eq_true]
    refine ⟨?_, ih⟩
    unfold normPair pairNorm normKey
    cases p.key <;> simp

/-! ### Stage 3: `_ensure_braces` wraps the body in braces, removes the
trailing comma, and finds no comma-before-brace inside the body -/

theorem pyRStrip_concat {l : List Char} {b : Char}
    (h : l.getLast? = some b) (hb : isRStripChar b = false) :
    pyRStrip (l ++ [',']) = l := by
  unfold pyRStrip
  rw [List.reverse_append]
  show (List.dropWhile isRStripChar (',' :: l.reverse)).reverse = l
  rw [List.dropWhile_cons]
  simp only [show isRStripChar ',' = true from rfl, if_true]
  have hrev : l.reverse.head? = some b := by
    rw [List.head?_reverse]
    exact h
  rw [dropWhile_eq_self_head? hrev hb, List.reverse_reverse]

theorem cb_body {ps : List FPair} (hne : ps ≠ []) (hwf : ps.all pairOk = true) :
    cbAux (renderBodyD ps ++ ['}']) = renderBodyD ps ++ ['}'] := by
  induction ps with
  | nil => exact absurd rfl hne
  | cons p rest ih =>
    simp only [List.all_cons, Bool.and_eq_true] at hwf
    have hpchars : ∀ c ∈ renderPairD p, c ≠ ',' :=
      fun c hc => (renderPairD_chars hwf.1 c hc).1
    cases rest with
    | nil =>
      show cbAux (renderPairD p ++ ['}']) = renderPairD p ++ ['}']
      rw [cb_copy hpchars]
      rfl
    | cons q rest' =>
      show cbAux ((renderPairD p ++ ',' :: ' ' :: renderBodyD (q :: rest')) ++ ['}']) = _
      rw [List.append_assoc]
      rw [cb_copy hpchars]
      obtain ⟨c, t, hbody, hws, -, hnb⟩ := renderBodyD_head (by simp) hwf.2
      have hstep : cbAux ((',' :: ' ' :: renderBodyD (q :: rest')) ++ ['}']) =
          ',' :: ' ' :: cbAux (renderBodyD (q :: rest') ++ ['}']) := by
        show cbAux (',' :: (' ' :: (renderBodyD (q :: rest') ++ ['}']))) = _
        rw [cbAux_cons]
        rw [if_neg ?hcond]
        case hcond =>
          rintro ⟨-, hhead⟩
          rw [show List.dropWhile isPyWs (' ' :: (renderBodyD (q :: rest') ++ ['}'])) =
              List.dropWhile isPyWs (renderBodyD (q :: rest') ++ ['}']) from ?_] at hhead
          · rw [hbody] at hhead
            rw [dropWhile_eq_self_head? (by rw [List.cons_append]; rfl) hws] at hhead
            rw [List.cons_append] at hhead
            simp only [List.head?_cons, Option.some.injEq] at hhead
            exact hnb hhead
          · rw [List.dropWhile_cons, if_pos (show isPyWs ' ' = true from rfl)]
        rw [cbAux_cons]
        rw [if_neg (by rintro ⟨hsp, -⟩; cases hsp)]
      rw [hstep, ih (by simp) hwf.2]
      rw [show renderBodyD (p :: q :: rest') =
          renderPairD p ++ ',' :: ' ' :: renderBodyD (q :: rest') from rfl,
        List.append_assoc]
      rfl

theorem stage3_braces {ps : List FPair} (hne : ps ≠ []) (hwf : ps.all pairOk = true) :
    ensure_braces (defectiveChars ps) = '{' :: (renderBodyD ps ++ ['}']) := by
  obtain ⟨c, t, hbody, hws, hnb, -⟩ := renderBodyD_head hne hwf
  obtain ⟨b, hlast, hrs⟩ := renderBodyD_last hne hwf
  have hhead : (defectiveChars ps).head? = some c := by
    unfold defectiveChars
    rw [hbody]
    rfl
  have hlastd : (defectiveChars ps).getLast? = some ',' := List.getLast?_concat _
  unfold ensure_braces
  rw [if_neg (by rw [hhead]; intro hcontra; exact hnb (by injection hcontra))]
  have hlast1 : ('{' :: defectiveChars ps).getLast? = some ',' := by
    rw [show ('{' :: defectiveChars ps) = [] ++ ('{' :: defectiveChars ps) from rfl]
    apply getLast?_append_right
    rw [show ('{' :: defectiveChars ps).getLast? = (defectiveChars ps).getLast? from ?_]
    · exact hlastd
    · unfold defectiveChars
      rw [hbody]
      rw [List.cons_append, List.getLast?_cons_cons]
  simp only [if_pos rfl]
  rw [if_neg (by rw [hlast1]; intro hcontra; injection hcontra with heq; cases heq)]
  have hstrip : pyRStrip ('{' :: defectiveChars ps) = '{' :: renderBodyD ps := by
    unfold defectiveChars
    rw [show ('{' :: (renderBodyD ps ++ [','])) = ('{' :: renderBodyD ps) ++ [','] from rfl]
    apply pyRStrip_concat
    · rw [hbody, List.getLast?_cons_cons]
      rw [← hbody]
      exact hlast
    · exact hrs
  rw [hstrip]
  show cbAux ('{' :: (renderBodyD ps ++ ['}'])) = _
  rw [cbAux_cons]
  rw [if_neg (by rintro ⟨hc, -⟩; cases hc)]
  rw [cb_body hne hwf]

/-! ### Stage 4: the key-quoting pass rewrites exactly the keys -/

theorem qk_rbrace : qkAux ['}'] = ['}'] := by decide

theorem renderVal_chars_no_trigger {v : FVal} (hv : valOk v = true) :
    ∀ c ∈ renderVal v, ¬(c = ',' ∨ c = '{') := by
  intro c hc
  cases v with
  | fnum ds =>
    unfold valOk numOk at hv
    simp only [Bool.and_eq_true, List.all_eq_true] at hv
    have h := bareChar_ne (numChar_bare (hv.2 c hc))
    rintro (rfl | rfl)
    · exact h.1 rfl
    · exact h.2.1 rfl
  | fbare w =>
    unfold valOk bareOk at hv
    simp only [Bool.and_eq_true, List.all_eq_true] at hv
    have h := bareChar_ne (hv.2 c hc)
    rintro (rfl | rfl)
    · exact h.1 rfl
    · exact h.2.1 rfl

theorem qk_body : ∀ (ps : List FPair), ps ≠ [] → ps.all pairOk = true →
    ps.all pairNorm = true →
    ∀ (t : Char) (sp : List Char), (t = ',' ∨ t = '{') → (∀ c ∈ sp, isPyWs c = true) →
    qkAux (t :: (sp ++ (renderBodyD ps ++ ['}']))) =
      t :: (sp ++ (renderBodyM ps ++ ['}'])) := by
  intro ps
  induction ps with
  | nil => intro h; exact absurd rfl h
  | cons p rest ih =>
    intro hne hwf hnorm t sp ht hsp
    simp only [List.all_cons, Bool.and_eq_true] at hwf hnorm
    obtain ⟨⟨hwfp, hwfr⟩, ⟨hnormp, hnormr⟩⟩ := And.intro hwf hnorm
    obtain ⟨pk, pv⟩ := p
    have hkv : keyOk pk = true ∧ valOk pv = true := by
      unfold pairOk at hwfp
      simpa using hwfp
    have hvalOk : valOk pv = true := hkv.2
    have hvchunk : ∀ c ∈ (' ' :: renderVal pv), ¬(c = ',' ∨ c = '{') := by
      intro c hc
      rcases List.mem_cons.mp hc with rfl | hc'
      · rintro (h | h) <;> cases h
      · exact renderVal_chars_no_trigger hvalOk c hc'
    have hspws : ∀ c ∈ ([' '] : List Char), isPyWs c = true := by
      intro c hc
      simp only [List.mem_singleton] at hc
      subst hc
      rfl
    cases pk with
    | kbare k =>
      have hk : identOk k = true := hkv.1
      cases rest with
      | nil =>
        show qkAux (t :: (sp ++ ((k ++ ':' :: ' ' :: renderVal pv) ++ ['}']))) =
          t :: (sp ++ (('"' :: (k ++ '"' :: ':' :: ' ' :: renderVal pv)) ++ ['}']))
        rw [show (k ++ ':' :: ' ' :: renderVal pv) ++ ['}'] =
          k ++ ':' :: ((' ' :: renderVal pv) ++ ['}']) from by simp]
        rw [qkAux_cons, if_pos ht]
        rw [tryKeyMatch_render hsp hk]
        dsimp only
        rw [qk_copy hvchunk, qk_rbrace]
        simp [List.append_assoc]
      | cons q rest' =>
        show qkAux (t :: (sp ++ (((k ++ ':' :: ' ' :: renderVal pv) ++
            ',' :: ' ' :: renderBodyD (q :: rest')) ++ ['}']))) =
          t :: (sp ++ ((('"' :: (k ++ '"' :: ':' :: ' ' :: renderVal pv)) ++
            ',' :: ' ' :: renderBodyM (q :: rest')) ++ ['}']))
        rw [show ((k ++ ':' :: ' ' :: renderVal pv) ++
            ',' :: ' ' :: renderBodyD (q :: rest')) ++ ['}'] =
          k ++ ':' :: ((' ' :: renderVal pv) ++
            (',' :: ([' '] ++ (renderBodyD (q :: rest') ++ ['}'])))) from by simp]
        rw [qkAux_cons, if_pos ht]
        rw [tryKeyMatch_render hsp hk]
        dsimp only
        rw [qk_copy hvchunk]
        rw [ih (by simp) hwfr hnormr ',' [' '] (Or.inl rfl) hspws]
        simp [List.append_assoc]
    | kquoted gl gr k =>
      have hglr : gl = '"' ∧ gr = '"' := by
        unfold pairNorm at hnormp
        simpa using hnormp
      obtain ⟨rfl, rfl⟩ := hglr
      have hk : identOk k = true := by
        have h2 := hkv.1
        unfold keyOk at h2
        simp only [Bool.and_eq_true] at h2
        exact h2.2
      have hchunk : ∀ c ∈ (sp ++ ('"' :: (k ++ '"' :: ':' :: ' ' :: renderVal pv))),
          ¬(c = ',' ∨ c = '{') := by
        intro c hc
        rcases List.mem_append.mp hc with hcs | hck
        · have := ws_ne (hsp c hcs)
          rintro (rfl | rfl)
          · exact this.1 rfl
          · exact this.2.1 rfl
        · rcases List.mem_cons.mp hck with rfl | hck'
          · rintro (h | h) <;> cases h
          · rcases List.mem_append.mp hck' with hcm | hcr
            · unfold identOk at hk
              simp only [Bool.and_eq_true, List.all_eq_true] at hk
              have := identChar_ne (hk.2 c hcm)
              rintro (rfl | rfl)
              · exact this.1 rfl
              · exact this.2.1 rfl
            · rcases List.mem_cons.mp hcr with rfl | hcr'
              · rintro (h | h) <;> cases h
              · rcases List.mem_cons.mp hcr' with rfl | hcr2
                · rintro (h | h) <;> cases h
                · rcases List.mem_cons.mp hcr2 with rfl | hcv
                  · rintro (h | h) <;> cases h
                  · exact renderVal_chars_no_trigger hvalOk c hcv
      cases rest with
      | nil =>
        show qkAux (t :: (sp ++ ((('"' :: (k ++ ['"'])) ++ ':' :: ' ' :: renderVal pv)
            ++ ['}']))) =
          t :: (sp ++ (('"' :: (k ++ '"' :: ':' :: ' ' :: renderVal pv)) ++ ['}']))
        rw [show (('"' :: (k ++ ['"'])) ++ ':' :: ' ' :: renderVal pv) ++ ['}'] =
          '"' :: ((k ++ '"' :: ':' :: ' ' :: renderVal pv) ++ ['}']) from by simp]
        rw [qkAux_cons, if_pos ht]
        rw [tryKeyMatch_quote hsp]
        dsimp only
        rw [show sp ++ '"' :: ((k ++ '"' :: ':' :: ' ' :: renderVal pv) ++ ['}']) =
          (sp ++ ('"' :: (k ++ '"' :: ':' :: ' ' :: renderVal pv))) ++ ['}'] from by simp]
        rw [qk_copy hchunk, qk_rbrace]
        simp [List.append_assoc]
      | cons q rest' =>
        show qkAux (t :: (sp ++ (((('"' :: (k ++ ['"'])) ++ ':' :: ' ' :: renderVal pv) ++
            ',' :: ' ' :: renderBodyD (q :: rest')) ++ ['}']))) =
          t :: (sp ++ ((('"' :: (k ++ '"' :: ':' :: ' ' :: renderVal pv)) ++
            ',' :: ' ' :: renderBodyM (q :: rest')) ++ ['}']))
        rw [show ((('"' :: (k ++ ['"'])) ++ ':' :: ' ' :: renderVal pv) ++
            ',' :: ' ' :: renderBodyD (q :: rest')) ++ ['}'] =
          '"' :: ((k ++ '"' :: ':' :: ' ' :: renderVal pv) ++
            (',' :: ([' '] ++ (renderBodyD (q :: rest') ++ ['}'])))) from by simp]
        rw [qkAux_cons, if_pos ht]
        rw [tryKeyMatch_quote hsp]
        dsimp only
        rw [show sp ++ '"' :: ((k ++ '"' :: ':' :: ' ' :: renderVal pv) ++
            (',' :: ([' '] ++ (renderBodyD (q :: rest') ++ ['}'])))) =
          (sp ++ ('"' :: (k ++ '"' :: ':' :: ' ' :: renderVal pv))) ++
            (',' :: ([' '] ++ (renderBodyD (q :: rest') ++ ['}']))) from by simp]
        rw [qk_copy hchunk]
        rw [ih (by simp) hwfr hnormr ',' [' '] (Or.inl rfl) hspws]
        simp [List.append_assoc]

/-! ### Stage 5: the bareword-value pass quotes exactly the bareword
values -/

theorem qb_rbrace : qbAux ['}'] = ['}'] := by decide

theorem qb_key_chunk {ki : List Char} (hk : identOk ki = true) :
    ∀ c ∈ ('"' :: (ki ++ ['"'])), c ≠ ':' := by
  intro c hc
  rcases List.mem_cons.mp hc with rfl | hc'
  · decide
  · rcases List.mem_append.mp hc' with hcm | hcg
    · unfold identOk at hk
      simp only [Bool.and_eq_true, List.all_eq_true] at hk
      exact (identChar_ne (hk.2 c hcm)).2.2.2.1
    · simp only [List.mem_singleton] at hcg
      subst hcg
      decide

theorem qb_num_chunk {ds : List Char} (hnum : numOk ds = true) :
    ∀ c ∈ (' ' :: ds), c ≠ ':' := by
  intro c hc
  rcases List.mem_cons.mp hc with rfl | hc'
  · decide
  · unfold numOk at hnum
    simp only [Bool.and_eq_true, List.all_eq_true] at hnum
    exact (bareChar_ne (numChar_bare (hnum.2 c hc'))).2.2.2.1

theorem qb_body : ∀ (ps : List FPair), ps ≠ [] → ps.all pairOk = true →
    qbAux (renderBodyM ps ++ ['}']) = renderBodyS ps ++ ['}'] := by
  intro ps
  induction ps with
  | nil => intro h; exact absurd rfl h
  | cons p rest ih =>
    intro hne hwf
    simp only [List.all_cons, Bool.and_eq_true] at hwf
    obtain ⟨hwfp, hwfr⟩ := hwf
    obtain ⟨pk, pv⟩ := p
    have hkv : keyOk pk = true ∧ valOk pv = true := by
      unfold pairOk at hwfp
      simpa using hwfp
    have hkident : identOk (keyIdent pk) = true := by
      cases pk with
      | kbare k => exact hkv.1
      | kquoted gl gr k =>
        have h2 := hkv.1
        unfold keyOk at h2
        simp only [Bool.and_eq_true] at h2
        exact h2.2
    cases rest with
    | nil =>
      show qbAux (('"' :: (keyIdent pk ++ '"' :: ':' :: ' ' :: renderVal pv)) ++ ['}']) =
        renderPairS ⟨pk, pv⟩ ++ ['}']
      rw [show ('"' :: (keyIdent pk ++ '"' :: ':' :: ' ' :: renderVal pv)) ++ ['}'] =
        ('"' :: (keyIdent pk ++ ['"'])) ++
          (':' :: (' ' :: (renderVal pv ++ ['}']))) from by simp]
      rw [qb_copy (qb_key_chunk hkident)]
      rw [qbAux_cons, if_pos rfl]
      cases hval : pv with
      | fnum ds =>
        have hnum : numOk ds = true := by
          rw [hval] at hkv
          exact hkv.2
        rw [show renderVal (FVal.fnum ds) = ds from rfl]
        rw [@tryBareword_num ds ['}'] hnum (Or.inr rfl)]
        dsimp only
        rw [show (' ' :: (ds ++ ['}'])) = (' ' :: ds) ++ ['}'] from rfl]
        rw [qb_copy (qb_num_chunk hnum), qb_rbrace]
        show _ = renderPairS ⟨pk, FVal.fnum ds⟩ ++ ['}']
        unfold renderPairS
        simp [List.append_assoc]
      | fbare w =>
        have hbare : bareOk w = true := by
          rw [hval] at hkv
          exact hkv.2
        rw [show renderVal (FVal.fbare w) = w from rfl]
        rw [@tryBareword_bare w ['}'] hbare (Or.inr rfl)]
        dsimp only
        rw [qb_rbrace]
        show _ = renderPairS ⟨pk, FVal.fbare w⟩ ++ ['}']
        unfold renderPairS
        simp [List.append_assoc]
    | cons q rest' =>
      show qbAux ((('"' :: (keyIdent pk ++ '"' :: ':' :: ' ' :: renderVal pv)) ++
          ',' :: ' ' :: renderBodyM (q :: rest')) ++ ['}']) =
        (renderPairS ⟨pk, pv⟩ ++ ',' :: ' ' :: renderBodyS (q :: rest')) ++ ['}']
      rw [show (('"' :: (keyIdent pk ++ '"' :: ':' :: ' ' :: renderVal pv)) ++
          ',' :: ' ' :: renderBodyM (q :: rest')) ++ ['}'] =
        ('"' :: (keyIdent pk ++ ['"'])) ++
          (':' :: (' ' :: (renderVal pv ++
            (',' :: ' ' :: (renderBodyM (q :: rest') ++ ['}']))))) from by simp]
      rw [qb_copy (qb_key_chunk hkident)]
      rw [qbAux_cons, if_pos rfl]
      have htailstep : qbAux (',' :: ' ' :: (renderBodyM (q :: rest') ++ ['}'])) =
          ',' :: ' ' :: (renderBodyS (q :: rest') ++ ['}']) := by
        rw [qbAux_cons, if_neg (by decide)]
        rw [qbAux_cons, if_neg (by decide)]
        rw [ih (by simp) hwfr]
      cases hval : pv with
      | fnum ds =>
        have hnum : numOk ds = true := by
          rw [hval] at hkv
          exact hkv.2
        rw [show renderVal (FVal.fnum ds) = ds from rfl]
        rw [@tryBareword_num ds (',' :: ' ' :: (renderBodyM (q :: rest') ++ ['}'])) hnum
          (Or.inl rfl)]
        dsimp only
        rw [show (' ' :: (ds ++ (',' :: ' ' :: (renderBodyM (q :: rest') ++ ['}'])))) =
          (' ' :: ds) ++ (',' :: ' ' :: (renderBodyM (q :: rest') ++ ['}'])) from rfl]
        rw [qb_copy (qb_num_chunk hnum)]
        rw [htailstep]
        show _ = (renderPairS ⟨pk, FVal.fnum ds⟩ ++ ',' :: ' ' :: renderBodyS (q :: rest')) ++ ['}']
        unfold renderPairS
        simp [List.append_assoc]
      | fbare w =>
        have hbare : bareOk w = true := by
          rw [hval] at hkv
          exact hkv.2
        rw [show renderVal (FVal.fbare w) = w from rfl]
        rw [@tryBareword_bare w (',' :: ' ' :: (renderBodyM (q :: rest') ++ ['}'])) hbare
          (Or.inl rfl)]
        dsimp only
        rw [htailstep]
        show _ = (renderPairS ⟨pk, FVal.fbare w⟩ ++ ',' :: ' ' :: renderBodyS (q :: rest')) ++ ['}']
        unfold renderPairS
        simp [List.append_assoc]

/-! ### Normalisation invariance of the strict rendering -/

theorem renderPairS_norm (p : FPair) : renderPairS (normPair p) = renderPairS p := by
  obtain ⟨pk, pv⟩ := p
  cases pk <;> rfl

theorem strict_norm : ∀ (ps : List FPair), renderBodyS (ps.map normPair) = renderBodyS ps := by
  intro ps
  induction ps with
  | nil => rfl
  | cons p rest ih =>
    cases rest with
    | nil =>
      show renderPairS (normPair p) = renderPairS p
      exact renderPairS_norm p
    | cons q rest' =>
      simp only [List.map_cons]
      show renderPairS (normPair p) ++
          ',' :: ' ' :: renderBodyS (normPair q :: rest'.map normPair) = _
      rw [renderPairS_norm]
      have h2 : renderBodyS (normPair q :: rest'.map normPair) = renderBodyS (q :: rest') := by
        simpa using ih
      rw [h2]
      rfl

/-- The full repair pipeline on a defective family member equals the
strict rendering, character for character. -/
theorem repairChars_family {ps : List FPair} (hne : ps ≠ []) (hwf : ps.all pairOk = true) :
    repairChars (defectiveChars ps) = strictChars ps := by
  have hne' : ps.map normPair ≠ [] := by
    intro h
    exact hne (List.map_eq_nil_iff.mp h)
  have hwf' := norm_wf hwf
  have hnorm := map_normPair_all_pairNorm ps
  unfold repairChars
  rw [stage1_strip hne hwf, stage2_curly hwf, stage3_braces hne' hwf']
  have hqk := qk_body (ps.map normPair) hne' hwf' hnorm '{' [] (Or.inr rfl)
    (by intro c hc; cases hc)
  rw [show ('{' :: (renderBodyD (ps.map normPair) ++ ['}'])) =
    ('{' :: ([] ++ (renderBodyD (ps.map normPair) ++ ['}']))) from rfl]
  rw [hqk]
  rw [show ('{' : Char) :: ([] ++ (renderBodyM (ps.map normPair) ++ ['}'])) =
    '{' :: (renderBodyM (ps.map normPair) ++ ['}']) from rfl]
  rw [qbAux_cons, if_neg (by decide)]
  rw [qb_body (ps.map normPair) hne' hwf', strict_norm]
  rfl

/-- The witness family member: `TempSet: 25.0, „HumSet": N/A,` — a bare
key with a numeric value, then a curly-quoted key with a bareword
sentinel value. -/
def psEx : List FPair :=
  [⟨.kbare ['T','e','m','p','S','e','t'], .fnum ['2','5','.','0']⟩,
   ⟨.kquoted '„' '"' ['H','u','m','S','e','t'], .fbare ['N','/','A']⟩]

/-- C4: for every raw device response that is well-formed except for the
repairable defects — missing outer braces, a trailing comma, curly quote
glyphs on keys, unquoted identifier keys, unquoted bareword values —
`parse_response` produces exactly the structured data of the hand-written
strict-JSON equivalent; in particular the flat text
`TempSet: 25.0, HumSet: N/A,` parses to the mapping
TempSet ↦ 25.0, HumSet ↦ "N/A", and the key-quoting also applies inside
a nested object as in `TempSet_Range: \x7bmin: 18.0, max: 80.0\x7d,`. -/
theorem C4_repair_equals_strict (ps : List FPair) (hne : ps ≠ [])
    (hwf : ps.all pairOk = true) :
    parse_response (String.mk (defectiveChars ps)) = jsonLoads (strictChars ps) ∧
    parse_response (String.mk ("TempSet: 25.0, HumSet: N/A,".data)) =
      .ok (.obj [("TempSet", .num 25), ("HumSet", .str "N/A")]) ∧
    parse_response (String.mk ("TempSet_Range: \x7bmin: 18.0, max: 80.0\x7d,".data)) =
      .ok (.obj [("TempSet_Range", .obj [("min", .num 18), ("max", .num 80)])]) := by
  refine ⟨?_, by rfl, by rfl⟩
  show jsonLoads (repairChars (defectiveChars ps)) = jsonLoads (strictChars ps)
  rw [repairChars_family hne hwf]

theorem C4_repair_equals_strict_witness :
    psEx ≠ [] ∧ psEx.all pairOk = true ∧
    (parse_response (String.mk (defectiveChars psEx)) = jsonLoads (strictChars psEx) ∧
     parse_response (String.mk ("TempSet: 25.0, HumSet: N/A,".data)) =
       .ok (.obj [("TempSet", .num 25), ("HumSet", .str "N/A")]) ∧
     parse_response (String.mk ("TempSet_Range: \x7bmin: 18.0, max: 80.0\x7d,".data)) =
       .ok (.obj [("TempSet_Range", .obj [("min", .num 18), ("max", .num 80)])])) :=
  ⟨List.cons_ne_nil _ _, by decide,
   C4_repair_equals_strict psEx (List.cons_ne_nil _ _) (by decide)⟩
